import Mathlib

/-!
Shallow embedding of the lox-rs expression interpreter
(src/scanner.rs, src/token.rs, src/expression.rs, src/parser.rs,
src/interpreter.rs) and proofs about it.

Modelling conventions:
* Rust `String` source text is modelled as `List Char`; Rust byte indices are
  modelled through an explicit UTF-8 byte-length function, because the scanner
  mixes character counting (`chars().nth`) with byte arithmetic
  (`source.len()`, `source[a..b]`).
* Rust `f64` is modelled by `F`: an exact rational together with a `nan`
  element.  Rounding, infinities and signed zero are not modelled; none of the
  verified claims depends on them, and every concrete input used below is
  exact in IEEE-754 double precision.
* A Rust panic (`unwrap` failure, out-of-bounds slice, `todo!()`,
  `unreachable!()`, `panic!`) is modelled by an explicit `panicked` result
  constructor, never by a default value.
-/

/-- ASCII test used to state the totality claim about the scanner. -/
def isAsciiChar (c : Char) : Bool := c.toNat < 128

/-- Number of bytes of the UTF-8 encoding of a character (what Rust's
`String::len` counts per `char`). -/
def utf8Len (c : Char) : Nat :=
  if c.toNat < 0x80 then 1
  else if c.toNat < 0x800 then 2
  else if c.toNat < 0x10000 then 3
  else 4

/-- Byte length of a source string, i.e. Rust `self.source.len()`. -/
def byteLen (s : List Char) : Nat := (s.map utf8Len).sum

/-- If the byte offset `n` is a character boundary of (the UTF-8 encoding of)
`s`, the index of the character starting there; otherwise `none` (a Rust
string slice at a non-boundary panics). -/
def boundaryIdx : List Char → Nat → Option Nat
  | _, 0 => some 0
  | [], _ + 1 => none
  | c :: rest, n + 1 =>
      if utf8Len c ≤ n + 1 then (boundaryIdx rest (n + 1 - utf8Len c)).map (· + 1)
      else none

/-- Rust byte-index slicing `s[a..b]` on a string with characters `s`:
`none` models the slice panic (reversed range, out of range, or an index that
is not a character boundary). -/
def sliceBytes (s : List Char) (a b : Nat) : Option (List Char) :=
  if a ≤ b then
    match boundaryIdx s a, boundaryIdx s b with
    | some i, some j => some ((s.drop i).take (j - i))
    | _, _ => none
  else none

/-- Model of `f64`: an exact rational, or NaN.  (Infinities and rounding are
not modelled; see the header comment.) -/
inductive F where
  | fin (q : ℚ)
  | nan
deriving DecidableEq, Repr

/-- `f64` equality (`==`): NaN is unequal to everything, itself included. -/
def F.beq : F → F → Bool
  | .fin p, .fin q => p == q
  | _, _ => false

/-- `f64` addition; NaN propagates. -/
def F.add : F → F → F
  | .fin p, .fin q => .fin (p + q)
  | _, _ => .nan

/-- `f64` subtraction; NaN propagates. -/
def F.sub : F → F → F
  | .fin p, .fin q => .fin (p - q)
  | _, _ => .nan

/-- `f64` multiplication; NaN propagates. -/
def F.mul : F → F → F
  | .fin p, .fin q => .fin (p * q)
  | _, _ => .nan

/-- `f64` division; NaN propagates.  (Only reached by the interpreter with a
nonzero divisor, so the rational division is exact there.) -/
def F.div : F → F → F
  | .fin p, .fin q => .fin (p / q)
  | _, _ => .nan

/-- `f64` negation; NaN propagates. -/
def F.neg : F → F
  | .fin p => .fin (-p)
  | .nan => .nan

/-- `f64` `partial_cmp`: `None` when either side is NaN. -/
def F.pcmp : F → F → Option Ordering
  | .fin p, .fin q => some (compare p q)
  | _, _ => none

/-- `token.rs`: `enum Literal`. -/
inductive Literal where
  | identifier (s : List Char)
  | str (s : List Char)
  | number (n : F)
deriving DecidableEq, Repr

/-- `token.rs`: `enum TokenType` (keyword constructors are prefixed with `k`
because several Rust variant names are Lean keywords). -/
inductive TokenType where
  | leftParen | rightParen | leftBrace | rightBrace
  | comma | dot | minus | plus | semicolon | slash | star
  | bang | bangEqual | equal | equalEqual
  | greater | greaterEqual | less | lessEqual
  | literal
  | kand | kclass | kelse | kfalse | kfun | kfor | kif | knil | kor
  | kprint | kreturn | ksuper | kthis | ktrue | kvar | kwhile
  | eof
deriving DecidableEq, Repr

/-- `token.rs`: `struct Token`. -/
structure Token where
  token_type : TokenType
  lexeme : List Char
  literal : Option Literal
  line : Nat
deriving DecidableEq, Repr

/-- `scanner.rs`: the `KEYWORDS` map. -/
def keywords : List (List Char × TokenType) :=
  [("and".toList, .kand), ("class".toList, .kclass), ("else".toList, .kelse),
   ("false".toList, .kfalse), ("for".toList, .kfor), ("fun".toList, .kfun),
   ("if".toList, .kif), ("nil".toList, .knil), ("or".toList, .kor),
   ("print".toList, .kprint), ("return".toList, .kreturn),
   ("super".toList, .ksuper), ("this".toList, .kthis), ("true".toList, .ktrue),
   ("var".toList, .kvar), ("while".toList, .kwhile)]

/-- `KEYWORDS.get(text)`. -/
def keywordLookup (text : List Char) : Option TokenType :=
  (keywords.find? (fun p => p.1 == text)).map (·.2)

/-- `scanner.rs`: `Scanner::is_digit` (`char::is_digit(10)`). -/
def is_digit (c : Char) : Bool := ('0' ≤ c) && (c ≤ '9')

/-- `scanner.rs`: `Scanner::is_alphabet`. -/
def is_alphabet (c : Char) : Bool :=
  (('a' ≤ c) && (c ≤ 'z')) || (('A' ≤ c) && (c ≤ 'Z')) || (c == '_')

/-- `scanner.rs`: `Scanner::is_alpha_numeric`. -/
def is_alpha_numeric (c : Char) : Bool := is_alphabet c || is_digit c

/-- Value of a digit character. -/
def digitVal (c : Char) : Nat := c.toNat - '0'.toNat

/-- Value of a digit string, most significant digit first. -/
def digitsToNat (s : List Char) : Nat := s.foldl (fun a c => 10 * a + digitVal c) 0

/-- Model of `str::parse::<f64>()`, restricted to the shapes the scanner
produces (`digit+` optionally followed by `.` `digit+`); `none` on any other
shape, modelling that the scanner's `.unwrap()` is only known to succeed on
those.  The numeric value is exact (see the header comment on rounding). -/
def parseNum (s : List Char) : Option ℚ :=
  let intp := s.takeWhile is_digit
  let rest := s.dropWhile is_digit
  if intp.isEmpty then none
  else
    match rest with
    | [] => some (digitsToNat intp : ℚ)
    | '.' :: frac =>
        if frac.isEmpty || !(frac.all is_digit) then none
        else some ((digitsToNat intp : ℚ) + (digitsToNat frac : ℚ) / (10 ^ frac.length : ℚ))
    | _ => none

/-- `scanner.rs`: the mutable scanner state (`Scanner` minus the `lox`
back-reference; diagnostics reported through `lox.error_lexer` are collected
in `errors` as (line, message) pairs). -/
structure ScanState where
  source : List Char
  tokens : List Token
  start : Nat
  current : Nat
  line : Nat
  errors : List (Nat × String)
deriving DecidableEq, Repr

/-- Result of a scanner operation: a new state, a Rust panic, or fuel
exhaustion of the model's loop counter (never reached with the fuel the
top-level entry points supply). -/
inductive SRes (α : Type) where
  | ok (a : α)
  | panicked
  | fuelOut
deriving DecidableEq, Repr

/-- `Scanner::is_at_end`: `self.current >= self.source.len()` (bytes). -/
def is_at_end (st : ScanState) : Bool := byteLen st.source ≤ st.current

/-- `Scanner::peek`: `'\0'` at end, else `chars().nth(current).unwrap()`;
`none` models the unwrap panic. -/
def peek (st : ScanState) : Option Char :=
  if is_at_end st then some (Char.ofNat 0)
  else st.source.get? st.current

/-- `Scanner::peek_next`. -/
def peek_next (st : ScanState) : Option Char :=
  if byteLen st.source ≤ st.current + 1 then some (Char.ofNat 0)
  else st.source.get? (st.current + 1)

/-- `Scanner::advance`: `chars().nth(current).unwrap()` then `current += 1`;
`none` models the unwrap panic. -/
def advance (st : ScanState) : Option (Char × ScanState) :=
  match st.source.get? st.current with
  | none => none
  | some c => some (c, { st with current := st.current + 1 })

/-- `Scanner::matches` (total: it compares `chars().nth(current)` against
`Some(expected)` without unwrapping). -/
def matchesChar (st : ScanState) (expected : Char) : Bool × ScanState :=
  if is_at_end st then (false, st)
  else if st.source.get? st.current == some expected then
    (true, { st with current := st.current + 1 })
  else (false, st)

/-- `Scanner::add_token`: lexeme text is the byte slice
`source[start..current]`; `none` models the slice panic. -/
def add_token (st : ScanState) (tt : TokenType) (lit : Option Literal) :
    Option ScanState :=
  match sliceBytes st.source st.start st.current with
  | none => none
  | some text =>
      some { st with tokens := st.tokens ++ [⟨tt, text, lit, st.line⟩] }

/-- `Scanner::add_token_without_literal`. -/
def add_token_without_literal (st : ScanState) (tt : TokenType) :
    Option ScanState :=
  add_token st tt none

/-- Lift an `Option ScanState` (panicking primitive) into `SRes`. -/
def liftO : Option ScanState → SRes ScanState
  | none => .panicked
  | some st => .ok st

/-- The comment-skipping loop in `scan_token`'s `'/'` arm:
`while peek() != '\n' && !is_at_end() { advance(); }`. -/
def comment_loop : Nat → ScanState → SRes ScanState
  | 0, _ => .fuelOut
  | fuel + 1, st =>
    match peek st with
    | none => .panicked
    | some c =>
      if (c != '\n') && !(is_at_end st) then
        match advance st with
        | none => .panicked
        | some (_, st') => comment_loop fuel st'
      else .ok st

/-- The body of `Scanner::string`'s loop increments the line counter when the
peeked character is a newline, before advancing. -/
def bump_if_newline (c : Char) (st : ScanState) : ScanState :=
  if c == '\n' then { st with line := st.line + 1 } else st

/-- The loop in `Scanner::string`:
`while peek() != '"' && !is_at_end() { if peek() == '\n' line += 1; advance(); }`. -/
def string_loop : Nat → ScanState → SRes ScanState
  | 0, _ => .fuelOut
  | fuel + 1, st =>
    match peek st with
    | none => .panicked
    | some c =>
      if (c != '"') && !(is_at_end st) then
        match advance (bump_if_newline c st) with
        | none => .panicked
        | some (_, st') => string_loop fuel st'
      else .ok st

/-- The digit-consuming loop in `Scanner::number`:
`while is_digit(peek()) { advance(); }`. -/
def digit_loop : Nat → ScanState → SRes ScanState
  | 0, _ => .fuelOut
  | fuel + 1, st =>
    match peek st with
    | none => .panicked
    | some c =>
      if is_digit c then
        match advance st with
        | none => .panicked
        | some (_, st') => digit_loop fuel st'
      else .ok st

/-- The loop in `Scanner::identifier`:
`while is_alpha_numeric(peek()) { advance(); }`. -/
def ident_loop : Nat → ScanState → SRes ScanState
  | 0, _ => .fuelOut
  | fuel + 1, st =>
    match peek st with
    | none => .panicked
    | some c =>
      if is_alpha_numeric c then
        match advance st with
        | none => .panicked
        | some (_, st') => ident_loop fuel st'
      else .ok st

/-- `Scanner::string` (called after the opening `"` has been consumed):
scan to the closing quote; on end of input report "Unterminated string" and
emit nothing; otherwise take the byte slice `source[start..current]` as the
payload, emit the token, then consume the closing quote. -/
def scanString (st : ScanState) : SRes ScanState :=
  match string_loop (byteLen st.source + 1) st with
  | .ok st1 =>
    if is_at_end st1 then
      .ok { st1 with errors := st1.errors ++ [(st1.line, "Unterminated string")] }
    else
      match sliceBytes st1.source st1.start st1.current with
      | none => .panicked
      | some value =>
        match add_token st1 .literal (some (.str value)) with
        | none => .panicked
        | some st2 =>
          match advance st2 with
          | none => .panicked
          | some (_, st3) => .ok st3
  | e => e

/-- Shared tail of `Scanner::number`: parse the byte slice
`source[start..current]` (`.parse().unwrap()`) and emit the number token. -/
def finishNumber (st : ScanState) : SRes ScanState :=
  match sliceBytes st.source st.start st.current with
  | none => .panicked
  | some text =>
    match parseNum text with
    | none => .panicked
    | some q => liftO (add_token st .literal (some (.number (.fin q))))

/-- `Scanner::number`: digits, then optionally (if `peek() == '.'` and
`is_digit(peek_next())`) a dot and more digits, then parse and emit. -/
def scanNumber (st : ScanState) : SRes ScanState :=
  match digit_loop (byteLen st.source + 1) st with
  | .ok st1 =>
    match peek st1 with
    | none => .panicked
    | some c =>
      if c == '.' then
        match peek_next st1 with
        | none => .panicked
        | some c2 =>
          if is_digit c2 then
            match advance st1 with
            | none => .panicked
            | some (_, st2) =>
              match digit_loop (byteLen st2.source + 1) st2 with
              | .ok st3 => finishNumber st3
              | e => e
          else finishNumber st1
      else finishNumber st1
  | e => e

/-- `Scanner::identifier`: consume the identifier, look the lexeme up in the
keyword table, emit either the keyword kind or a `Literal` token with an
`Identifier` payload. -/
def scanIdentifier (st : ScanState) : SRes ScanState :=
  match ident_loop (byteLen st.source + 1) st with
  | .ok st1 =>
    match sliceBytes st1.source st1.start st1.current with
    | none => .panicked
    | some text =>
      match keywordLookup text with
      | some kw => liftO (add_token_without_literal st1 kw)
      | none => liftO (add_token st1 .literal (some (.identifier text)))
  | e => e

/-- `Scanner::scan_token`. -/
def scan_token (st : ScanState) : SRes ScanState :=
  match advance st with
  | none => .panicked
  | some (c, st1) =>
    match c with
    | '(' => liftO (add_token_without_literal st1 .leftParen)
    | ')' => liftO (add_token_without_literal st1 .rightParen)
    | '{' => liftO (add_token_without_literal st1 .leftBrace)
    | '}' => liftO (add_token_without_literal st1 .rightBrace)
    | ',' => liftO (add_token_without_literal st1 .comma)
    | '.' => liftO (add_token_without_literal st1 .dot)
    | '-' => liftO (add_token_without_literal st1 .minus)
    | '+' => liftO (add_token_without_literal st1 .plus)
    | ';' => liftO (add_token_without_literal st1 .semicolon)
    | '*' => liftO (add_token_without_literal st1 .star)
    | '!' =>
      let (m, st2) := matchesChar st1 '='
      liftO (add_token_without_literal st2 (if m then .bangEqual else .bang))
    | '=' =>
      let (m, st2) := matchesChar st1 '='
      liftO (add_token_without_literal st2 (if m then .equalEqual else .equal))
    | '<' =>
      let (m, st2) := matchesChar st1 '='
      liftO (add_token_without_literal st2 (if m then .lessEqual else .less))
    | '>' =>
      let (m, st2) := matchesChar st1 '='
      liftO (add_token_without_literal st2 (if m then .greaterEqual else .greater))
    | '/' =>
      let (m, st2) := matchesChar st1 '/'
      if m then comment_loop (byteLen st2.source + 1) st2
      else liftO (add_token_without_literal st2 .slash)
    | ' ' => .ok st1
    | '\r' => .ok st1
    | '\t' => .ok st1
    | '\n' => .ok { st1 with line := st1.line + 1 }
    | '"' => scanString st1
    | c =>
      if is_digit c then scanNumber st1
      else if is_alphabet c then scanIdentifier st1
      else .ok { st1 with errors := st1.errors ++ [(st1.line, "Unexpected character.")] }

/-- The `while !is_at_end()` loop of `Scanner::scan_tokens`:
`start = current; scan_token()`. -/
def scan_loop : Nat → ScanState → SRes ScanState
  | 0, _ => .fuelOut
  | fuel + 1, st =>
    if is_at_end st then .ok st
    else
      match scan_token { st with start := st.current } with
      | .ok st' => scan_loop fuel st'
      | .panicked => .panicked
      | .fuelOut => .fuelOut

/-- `Scanner::scan_tokens` on a fresh scanner (`Scanner::new`): run the loop,
then push the final `Eof` token with an empty lexeme at the current line. -/
def scan_tokens (source : List Char) : SRes (List Token) :=
  match scan_loop (byteLen source + 1) ⟨source, [], 0, 0, 1, []⟩ with
  | .ok st => .ok (st.tokens ++ [⟨.eof, [], none, st.line⟩])
  | .panicked => .panicked
  | .fuelOut => .fuelOut

/-- `interpreter.rs`: `enum LoxValue`. -/
inductive LoxValue where
  | number (n : F)
  | str (s : List Char)
  | boolean (b : Bool)
  | nil
deriving DecidableEq, Repr

/-- The derived `PartialEq` on `LoxValue` (`==`): same-variant payload
equality, different variants unequal; `f64` payloads compare by `F.beq`. -/
def loxBeq : LoxValue → LoxValue → Bool
  | .number a, .number b => F.beq a b
  | .str a, .str b => a == b
  | .boolean a, .boolean b => a == b
  | .nil, .nil => true
  | _, _ => false

/-- Lexicographic `Ordering` on strings (Rust `str` comparison by scalar
values). -/
def strCmp : List Char → List Char → Ordering
  | [], [] => .eq
  | [], _ :: _ => .lt
  | _ :: _, [] => .gt
  | a :: as_, b :: bs =>
      match compare a.toNat b.toNat with
      | .eq => strCmp as_ bs
      | o => o

/-- `impl PartialOrd for LoxValue`: `partial_cmp`. -/
def loxPcmp : LoxValue → LoxValue → Option Ordering
  | .number a, .number b => F.pcmp a b
  | .str a, .str b => some (strCmp a b)
  | .boolean a, .boolean b => some (compare (cond a 1 0) (cond b (1 : Nat) 0))
  | .nil, .nil => some .eq
  | _, _ => none

/-- `LoxValue::is_numerical`. -/
def LoxValue.is_numerical : LoxValue → Bool
  | .number _ => true
  | _ => false

/-- `LoxValue::is_string`. -/
def LoxValue.is_string : LoxValue → Bool
  | .str _ => true
  | _ => false

/-- `impl Not for LoxValue` (the `!` operator / truthiness negation). -/
def LoxValue.lnot : LoxValue → LoxValue
  | .boolean b => .boolean (!b)
  | .nil => .boolean true
  | _ => .boolean false

/-- `impl Neg for LoxValue`; `none` models the `todo!()` panics on `String`
and `Nil`.  Note the source maps both booleans to `Boolean(false)`. -/
def LoxValue.neg : LoxValue → Option LoxValue
  | .number n => some (.number n.neg)
  | .str _ => none
  | .boolean true => some (.boolean false)
  | .boolean false => some (.boolean false)
  | .nil => none

/-- `impl Sub for LoxValue`: number minus number, otherwise `Nil`. -/
def LoxValue.sub : LoxValue → LoxValue → LoxValue
  | .number n, .number n2 => .number (n.sub n2)
  | _, _ => .nil

/-- `impl Add for LoxValue`: number plus number, otherwise `Nil`. -/
def LoxValue.add : LoxValue → LoxValue → LoxValue
  | .number n, .number n2 => .number (n.add n2)
  | _, _ => .nil

/-- `impl Div for LoxValue`: for numbers, `Nil` when the divisor compares
equal to `0.0`, else the quotient; otherwise `Nil`. -/
def LoxValue.div : LoxValue → LoxValue → LoxValue
  | .number n, .number n2 =>
      if F.beq n2 (.fin 0) then .nil else .number (n.div n2)
  | _, _ => .nil

/-- `impl Mul for LoxValue`: the source computes `Number(n + n2)` — a sum —
for two numbers (otherwise `Nil`).  The embedding mirrors that line as is. -/
def LoxValue.mulOp : LoxValue → LoxValue → LoxValue
  | .number n, .number n2 => .number (n.add n2)
  | _, _ => .nil

/-- `runtime_error.rs`: `RuntimeError::new(token, message)`. -/
structure RuntimeError where
  token : Token
  message : String
deriving DecidableEq, Repr

/-- `Interpreter::check_number_operand`: `some err` models the `Err` return. -/
def check_number_operand (operator : Token) (operand : LoxValue) :
    Option RuntimeError :=
  match operand with
  | .number _ => none
  | _ => some ⟨operator, "Operand must be number."⟩

/-- `Interpreter::check_number_operands`. -/
def check_number_operands (operator : Token) (left right : LoxValue) :
    Option RuntimeError :=
  match left, right with
  | .number _, .number _ => none
  | _, _ => some ⟨operator, "Operands must be numbers."⟩

/-- `expression.rs`: `enum LiteralValue`. -/
inductive LiteralValue where
  | number (n : F)
  | str (s : List Char)
  | true_
  | false_
  | nil
deriving DecidableEq, Repr

/-- `expression.rs`: `enum Expr`. -/
inductive Expr where
  | binary (left : Expr) (operator : Token) (right : Expr)
  | grouping (e : Expr)
  | literal (v : LiteralValue)
  | unary (operator : Token) (e : Expr)
deriving DecidableEq, Repr

/-- Result of evaluating an expression: a value (`Ok`), a `RuntimeError`
(`Err`), or a Rust panic (`todo!()` / `unreachable!()`). -/
inductive EvalOut where
  | ok (v : LoxValue)
  | err (e : RuntimeError)
  | panicked
deriving DecidableEq, Repr

/-- Rust `left > right` via `PartialOrd`. -/
def loxGt (a b : LoxValue) : Bool := loxPcmp a b == some .gt

/-- Rust `left >= right` via `PartialOrd`. -/
def loxGe (a b : LoxValue) : Bool :=
  loxPcmp a b == some .gt || loxPcmp a b == some .eq

/-- Rust `left < right` via `PartialOrd`. -/
def loxLt (a b : LoxValue) : Bool := loxPcmp a b == some .lt

/-- Rust `left <= right` via `PartialOrd`. -/
def loxLe (a b : LoxValue) : Bool :=
  loxPcmp a b == some .lt || loxPcmp a b == some .eq

/-- The operator dispatch of `Interpreter::visit_binary_expr`, applied to the
two already-evaluated operands.  The final `_ => {}` arm of the source falls
through to `todo!()`, modelled as a panic. -/
def visit_binary_op (operator : Token) (left right : LoxValue) : EvalOut :=
  match operator.token_type with
  | .minus =>
    match check_number_operand operator right with
    | some e => .err e
    | none => .ok (left.sub right)
  | .slash =>
    match check_number_operands operator left right with
    | some e => .err e
    | none => .ok (left.div right)
  | .star =>
    match check_number_operands operator left right with
    | some e => .err e
    | none => .ok (left.mulOp right)
  | .plus =>
    if left.is_numerical && right.is_numerical then .ok (left.add right)
    else if left.is_string && right.is_string then
      match left, right with
      | .str s, .str t => .ok (.str (s ++ t))
      | _, _ => .panicked
    else .err ⟨operator, "Operands must be two numbers or two strings."⟩
  | .greater =>
    match check_number_operands operator left right with
    | some e => .err e
    | none => .ok (.boolean (loxGt left right))
  | .greaterEqual =>
    match check_number_operands operator left right with
    | some e => .err e
    | none => .ok (.boolean (loxGe left right))
  | .less =>
    match check_number_operands operator left right with
    | some e => .err e
    | none => .ok (.boolean (loxLt left right))
  | .lessEqual =>
    match check_number_operands operator left right with
    | some e => .err e
    | none => .ok (.boolean (loxLe left right))
  | .bangEqual => .ok (.boolean (!loxBeq left right))
  | .equalEqual => .ok (.boolean (loxBeq left right))
  | _ => .panicked

/-- `Interpreter::evaluate` / the `Visitor` implementation of
`interpreter.rs`: `visit_literal_expr`, `visit_grouping_expr`,
`visit_unary_expr` (whose non-`Minus`/`Bang` fall-through is
`unreachable!()`), and `visit_binary_expr`. -/
def evaluate : Expr → EvalOut
  | .literal v =>
    match v with
    | .number n => .ok (.number n)
    | .str s => .ok (.str s)
    | .true_ => .ok (.boolean true)
    | .false_ => .ok (.boolean false)
    | .nil => .ok .nil
  | .grouping e => evaluate e
  | .unary operator e =>
    match evaluate e with
    | .ok right =>
      match operator.token_type with
      | .minus =>
        match right.neg with
        | some v => .ok v
        | none => .panicked
      | .bang => .ok right.lnot
      | _ => .panicked
    | .err e => .err e
    | .panicked => .panicked
  | .binary l operator r =>
    match evaluate l with
    | .ok left =>
      match evaluate r with
      | .ok right => visit_binary_op operator left right
      | .err e => .err e
      | .panicked => .panicked
    | .err e => .err e
    | .panicked => .panicked

/-- `parser.rs`: the parser state (`Parser` minus the `lox` back-reference;
diagnostics reported through `lox.error_parser` are collected in `reports`
as (token, message) pairs). -/
structure PState where
  tokens : List Token
  current : Nat
  reports : List (Token × String)
deriving DecidableEq, Repr

/-- Result of a parser operation: `Ok`, `Err` (the `Result<_, String>` error
branch), a Rust panic, or fuel exhaustion of the model's recursion counter
(an artifact of the embedding; the theorems below only use inputs on which
the supplied fuel suffices). -/
inductive PRes (α : Type) where
  | ok (a : α) (st : PState)
  | err (msg : String) (st : PState)
  | panicked (st : PState)
  | fuelOut
deriving DecidableEq, Repr

/-- `Parser::peek`: `self.tokens[self.current]`; `none` models the
out-of-bounds index panic. -/
def p_peek (st : PState) : Option Token := st.tokens.get? st.current

/-- `Parser::is_at_end`: `peek().token_type == Eof` (inherits `peek`'s
panic). -/
def p_is_at_end (st : PState) : Option Bool :=
  (p_peek st).map (·.token_type == .eof)

/-- `Parser::previous`: `self.tokens[self.current - 1]`; `none` models both
the usize underflow at `current == 0` and an out-of-bounds index. -/
def p_previous (st : PState) : Option Token :=
  if st.current = 0 then none else st.tokens.get? (st.current - 1)

/-- `Parser::advance`: bump `current` unless at end, then `previous()`. -/
def p_advance (st : PState) : Option (Token × PState) :=
  match p_is_at_end st with
  | none => none
  | some b =>
    let st' := if b then st else { st with current := st.current + 1 }
    (p_previous st').map (fun t => (t, st'))

/-- `Parser::check`. -/
def p_check (st : PState) (t : TokenType) : Option Bool :=
  match p_is_at_end st with
  | none => none
  | some true => some false
  | some false => (p_peek st).map (·.token_type == t)

/-- `Parser::matches_any`: try each type in order; on the first match,
advance and return true. -/
def p_matches_any : List TokenType → PState → Option (Bool × PState)
  | [], st => some (false, st)
  | t :: ts, st =>
    match p_check st t with
    | none => none
    | some true =>
      match p_advance st with
      | none => none
      | some (_, st') => some (true, st')
    | some false => p_matches_any ts st

/-- `Parser::error`: report (token, message) through the diagnostics
collaborator (`lox.error_parser`) and produce the `"ParseError"` string. -/
def p_error (st : PState) (tok : Token) (msg : String) : String × PState :=
  ("ParseError", { st with reports := st.reports ++ [(tok, msg)] })

/-- `Parser::consume`: on a match, advance; otherwise
`panic!("{:?}", self.error(peek(), message))` — the error is reported, then
the parser panics instead of returning. -/
def p_consume (st : PState) (t : TokenType) (msg : String) : PRes Token :=
  match p_check st t with
  | none => .panicked st
  | some true =>
    match p_advance st with
    | none => .panicked st
    | some (tok, st') => .ok tok st'
  | some false =>
    match p_peek st with
    | none => .panicked st
    | some tok => .panicked (p_error st tok msg).2

mutual

/-- `Parser::expression`. -/
def p_expression (fuel : Nat) (st : PState) : PRes Expr :=
  match fuel with
  | 0 => .fuelOut
  | fuel + 1 => p_equality fuel st

/-- `Parser::equality` (head call). -/
def p_equality (fuel : Nat) (st : PState) : PRes Expr :=
  match fuel with
  | 0 => .fuelOut
  | fuel + 1 =>
    match p_comparison fuel st with
    | .ok e st1 => p_equality_loop fuel e st1
    | o => o

/-- The `while matches_any([BangEqual, EqualEqual])` loop of
`Parser::equality`. -/
def p_equality_loop (fuel : Nat) (e : Expr) (st : PState) : PRes Expr :=
  match fuel with
  | 0 => .fuelOut
  | fuel + 1 =>
    match p_matches_any [.bangEqual, .equalEqual] st with
    | none => .panicked st
    | some (true, st1) =>
      match p_previous st1 with
      | none => .panicked st1
      | some op =>
        match p_comparison fuel st1 with
        | .ok right st2 => p_equality_loop fuel (.binary e op right) st2
        | o => o
    | some (false, st1) => .ok e st1

/-- `Parser::comparison` (head call). -/
def p_comparison (fuel : Nat) (st : PState) : PRes Expr :=
  match fuel with
  | 0 => .fuelOut
  | fuel + 1 =>
    match p_term fuel st with
    | .ok e st1 => p_comparison_loop fuel e st1
    | o => o

/-- The comparison-operator loop of `Parser::comparison`. -/
def p_comparison_loop (fuel : Nat) (e : Expr) (st : PState) : PRes Expr :=
  match fuel with
  | 0 => .fuelOut
  | fuel + 1 =>
    match p_matches_any [.greater, .greaterEqual, .less, .lessEqual] st with
    | none => .panicked st
    | some (true, st1) =>
      match p_previous st1 with
      | none => .panicked st1
      | some op =>
        match p_term fuel st1 with
        | .ok right st2 => p_comparison_loop fuel (.binary e op right) st2
        | o => o
    | some (false, st1) => .ok e st1

/-- `Parser::term` (head call). -/
def p_term (fuel : Nat) (st : PState) : PRes Expr :=
  match fuel with
  | 0 => .fuelOut
  | fuel + 1 =>
    match p_factor fuel st with
    | .ok e st1 => p_term_loop fuel e st1
    | o => o

/-- The `while matches_any([Minus, Plus])` loop of `Parser::term`. -/
def p_term_loop (fuel : Nat) (e : Expr) (st : PState) : PRes Expr :=
  match fuel with
  | 0 => .fuelOut
  | fuel + 1 =>
    match p_matches_any [.minus, .plus] st with
    | none => .panicked st
    | some (true, st1) =>
      match p_previous st1 with
      | none => .panicked st1
      | some op =>
        match p_factor fuel st1 with
        | .ok right st2 => p_term_loop fuel (.binary e op right) st2
        | o => o
    | some (false, st1) => .ok e st1

/-- `Parser::factor` (head call). -/
def p_factor (fuel : Nat) (st : PState) : PRes Expr :=
  match fuel with
  | 0 => .fuelOut
  | fuel + 1 =>
    match p_unary fuel st with
    | .ok e st1 => p_factor_loop fuel e st1
    | o => o

/-- The `while matches_any([Slash, Star])` loop of `Parser::factor`. -/
def p_factor_loop (fuel : Nat) (e : Expr) (st : PState) : PRes Expr :=
  match fuel with
  | 0 => .fuelOut
  | fuel + 1 =>
    match p_matches_any [.slash, .star] st with
    | none => .panicked st
    | some (true, st1) =>
      match p_previous st1 with
      | none => .panicked st1
      | some op =>
        match p_unary fuel st1 with
        | .ok right st2 => p_factor_loop fuel (.binary e op right) st2
        | o => o
    | some (false, st1) => .ok e st1

/-- `Parser::unary`. -/
def p_unary (fuel : Nat) (st : PState) : PRes Expr :=
  match fuel with
  | 0 => .fuelOut
  | fuel + 1 =>
    match p_matches_any [.bang, .minus] st with
    | none => .panicked st
    | some (true, st1) =>
      match p_previous st1 with
      | none => .panicked st1
      | some op =>
        match p_unary fuel st1 with
        | .ok right st2 => .ok (.unary op right) st2
        | o => o
    | some (false, st1) => p_primary fuel st1

/-- `Parser::primary`: the `false`/`true`/`nil`/`Literal` alternatives; an
`Identifier` payload (or no match) falls through to the grouping/error
tail.  `literal.literal.unwrap()` on a payload-less token is a panic. -/
def p_primary (fuel : Nat) (st : PState) : PRes Expr :=
  match fuel with
  | 0 => .fuelOut
  | fuel + 1 =>
    match p_matches_any [.kfalse] st with
    | none => .panicked st
    | some (true, st1) => .ok (.literal .false_) st1
    | some (false, st1) =>
      match p_matches_any [.ktrue] st1 with
      | none => .panicked st1
      | some (true, st2) => .ok (.literal .true_) st2
      | some (false, st2) =>
        match p_matches_any [.knil] st2 with
        | none => .panicked st2
        | some (true, st3) => .ok (.literal .nil) st3
        | some (false, st3) =>
          match p_matches_any [.literal] st3 with
          | none => .panicked st3
          | some (true, st4) =>
            match p_previous st4 with
            | none => .panicked st4
            | some tok =>
              match tok.literal with
              | none => .panicked st4
              | some (.str s) => .ok (.literal (.str s)) st4
              | some (.number n) => .ok (.literal (.number n)) st4
              | some (.identifier _) => p_primary_tail fuel st4
          | some (false, st4) => p_primary_tail fuel st4

/-- The grouping alternative and the final "Expected expression." error of
`Parser::primary`.  Note the source ignores `consume`'s return value, but
`consume` panics on a mismatch, so a missing `)` aborts here. -/
def p_primary_tail (fuel : Nat) (st : PState) : PRes Expr :=
  match fuel with
  | 0 => .fuelOut
  | fuel + 1 =>
    match p_matches_any [.leftParen] st with
    | none => .panicked st
    | some (true, st1) =>
      match p_expression fuel st1 with
      | .ok e st2 =>
        match p_consume st2 .rightParen "Expected ')' after expression." with
        | .ok _ st3 => .ok (.grouping e) st3
        | .err m st3 => .err m st3
        | .panicked st3 => .panicked st3
        | .fuelOut => .fuelOut
      | o => o
    | some (false, st1) =>
      match p_peek st1 with
      | none => .panicked st1
      | some tok =>
        let pr := p_error st1 tok "Expected expression."
        .err pr.1 pr.2

end

/-- `Parser::parse` on a fresh parser (`Parser::new`): `self.expression()`.
The fuel bound is an artifact of the embedding; it is large enough for every
input used in the theorems below. -/
def parse (tokens : List Token) : PRes Expr :=
  p_expression (8 * (tokens.length + 1)) ⟨tokens, 0, []⟩

/-! ### Invariants of a scanner step (claim C9) -/

/-- Relation between a scanner state and a later one: the source is
unchanged, the line counter has not decreased, and the token buffer has only
been extended, by non-`Eof` tokens whose line numbers lie between the old and
new line counters and are themselves non-decreasing. -/
def StepOK (st st' : ScanState) : Prop :=
  st'.source = st.source ∧ st.line ≤ st'.line ∧
  ∃ new, st'.tokens = st.tokens ++ new ∧
    (∀ t ∈ new, t.token_type ≠ .eof ∧ st.line ≤ t.line ∧ t.line ≤ st'.line) ∧
    List.Chain' (fun a b => a.line ≤ b.line) new

theorem stepOK_self {st : ScanState} : StepOK st st :=
  ⟨rfl, le_refl _, [], by simp, by simp, List.chain'_nil⟩

theorem StepOK.of_eq {st st' : ScanState} (hs : st'.source = st.source)
    (hl : st'.line = st.line) (ht : st'.tokens = st.tokens) : StepOK st st' :=
  ⟨hs, hl.ge, [], by simp [ht], by simp, List.chain'_nil⟩

theorem StepOK.trans {s t u : ScanState} (h1 : StepOK s t) (h2 : StepOK t u) :
    StepOK s u := by
  obtain ⟨hs1, hl1, n1, ht1, hb1, hc1⟩ := h1
  obtain ⟨hs2, hl2, n2, ht2, hb2, hc2⟩ := h2
  refine ⟨hs2.trans hs1, hl1.trans hl2, n1 ++ n2, by simp [ht2, ht1], ?_, ?_⟩
  · intro tk htk
    rcases List.mem_append.mp htk with h | h
    · exact ⟨(hb1 tk h).1, (hb1 tk h).2.1, le_trans (hb1 tk h).2.2 hl2⟩
    · exact ⟨(hb2 tk h).1, le_trans hl1 (hb2 tk h).2.1, (hb2 tk h).2.2⟩
  · refine List.Chain'.append hc1 hc2 ?_
    intro x hx y hy
    have hx' := hb1 x (List.mem_of_mem_getLast? hx)
    have hy' := hb2 y (List.mem_of_mem_head? hy)
    exact le_trans hx'.2.2 hy'.2.1

theorem add_token_step {st st' : ScanState} {tt : TokenType}
    {lit : Option Literal} (htt : tt ≠ TokenType.eof)
    (h : add_token st tt lit = some st') : StepOK st st' := by
  unfold add_token at h
  cases hs : sliceBytes st.source st.start st.current with
  | none => rw [hs] at h; exact absurd h (by simp)
  | some text =>
    rw [hs] at h
    cases h
    exact ⟨rfl, le_refl _, [⟨tt, text, lit, st.line⟩], rfl,
      by simpa using htt, List.chain'_singleton _⟩

theorem add_token_without_literal_step {st st' : ScanState} {tt : TokenType}
    (htt : tt ≠ TokenType.eof)
    (h : add_token_without_literal st tt = some st') : StepOK st st' :=
  add_token_step htt h

theorem advance_step {st st' : ScanState} {c : Char}
    (h : advance st = some (c, st')) : StepOK st st' := by
  unfold advance at h
  cases hg : st.source.get? st.current with
  | none => rw [hg] at h; exact absurd h (by simp)
  | some c' => rw [hg] at h; cases h; exact StepOK.of_eq rfl rfl rfl

theorem liftO_ok {o : Option ScanState} {st' : ScanState}
    (h : liftO o = .ok st') : o = some st' := by
  cases o with
  | none => exact absurd h (by simp [liftO])
  | some s => simpa [liftO] using h

theorem stepOK_bump_line {st : ScanState} :
    StepOK st { st with line := st.line + 1 } :=
  ⟨rfl, Nat.le_succ _, [], by simp, by simp, List.chain'_nil⟩

theorem stepOK_add_error {st : ScanState} {e : Nat × String} :
    StepOK st { st with errors := st.errors ++ [e] } :=
  StepOK.of_eq rfl rfl rfl

theorem stepOK_set_start {st : ScanState} {n : Nat} :
    StepOK st { st with start := n } :=
  StepOK.of_eq rfl rfl rfl

theorem matchesChar_step {st : ScanState} {c : Char} :
    StepOK st (matchesChar st c).2 := by
  unfold matchesChar
  split
  · exact stepOK_self
  · split
    · exact StepOK.of_eq rfl rfl rfl
    · exact stepOK_self

theorem comment_loop_step : ∀ (fuel : Nat) {st st' : ScanState},
    comment_loop fuel st = .ok st' → StepOK st st'
  | 0, st, st', h => by simp [comment_loop] at h
  | fuel + 1, st, st', h => by
    unfold comment_loop at h
    cases hp : peek st with
    | none => simp [hp] at h
    | some c =>
      simp only [hp] at h
      by_cases hc : ((c != '\n') && !(is_at_end st)) = true
      · rw [if_pos hc] at h
        cases ha : advance st with
        | none => simp [ha] at h
        | some p =>
          obtain ⟨c', st2⟩ := p
          simp only [ha] at h
          exact (advance_step ha).trans (comment_loop_step fuel h)
      · rw [if_neg hc] at h; cases h; exact stepOK_self

theorem string_loop_step : ∀ (fuel : Nat) {st st' : ScanState},
    string_loop fuel st = .ok st' → StepOK st st'
  | 0, st, st', h => by simp [string_loop] at h
  | fuel + 1, st, st', h => by
    unfold string_loop at h
    cases hp : peek st with
    | none => simp [hp] at h
    | some c =>
      simp only [hp] at h
      by_cases hc : ((c != '"') && !(is_at_end st)) = true
      · rw [if_pos hc] at h
        have hmid : StepOK st (bump_if_newline c st) := by
          unfold bump_if_newline
          by_cases hn : (c == '\n') = true
          · rw [if_pos hn]; exact stepOK_bump_line
          · rw [if_neg hn]; exact stepOK_self
        cases ha : advance (bump_if_newline c st) with
        | none => simp [ha] at h
        | some p =>
          obtain ⟨c', st2⟩ := p
          simp only [ha] at h
          exact hmid.trans ((advance_step ha).trans (string_loop_step fuel h))
      · rw [if_neg hc] at h; cases h; exact stepOK_self

theorem digit_loop_step : ∀ (fuel : Nat) {st st' : ScanState},
    digit_loop fuel st = .ok st' → StepOK st st'
  | 0, st, st', h => by simp [digit_loop] at h
  | fuel + 1, st, st', h => by
    unfold digit_loop at h
    cases hp : peek st with
    | none => simp [hp] at h
    | some c =>
      simp only [hp] at h
      by_cases hc : is_digit c = true
      · rw [if_pos hc] at h
        cases ha : advance st with
        | none => simp [ha] at h
        | some p =>
          obtain ⟨c', st2⟩ := p
          simp only [ha] at h
          exact (advance_step ha).trans (digit_loop_step fuel h)
      · rw [if_neg hc] at h; cases h; exact stepOK_self

theorem ident_loop_step : ∀ (fuel : Nat) {st st' : ScanState},
    ident_loop fuel st = .ok st' → StepOK st st'
  | 0, st, st', h => by simp [ident_loop] at h
  | fuel + 1, st, st', h => by
    unfold ident_loop at h
    cases hp : peek st with
    | none => simp [hp] at h
    | some c =>
      simp only [hp] at h
      by_cases hc : is_alpha_numeric c = true
      · rw [if_pos hc] at h
        cases ha : advance st with
        | none => simp [ha] at h
        | some p =>
          obtain ⟨c', st2⟩ := p
          simp only [ha] at h
          exact (advance_step ha).trans (ident_loop_step fuel h)
      · rw [if_neg hc] at h; cases h; exact stepOK_self

theorem keywordLookup_ne_eof {text : List Char} {kw : TokenType}
    (h : keywordLookup text = some kw) : kw ≠ .eof := by
  unfold keywordLookup at h
  cases hf : keywords.find? (fun p => p.1 == text) with
  | none => simp [hf] at h
  | some p =>
    simp only [hf, Option.map_some'] at h
    cases h
    have hm := List.mem_of_find?_eq_some hf
    have hall : ∀ q ∈ keywords, q.2 ≠ TokenType.eof := by decide
    exact hall p hm

theorem scanString_step {st st' : ScanState} (h : scanString st = .ok st') :
    StepOK st st' := by
  unfold scanString at h
  cases hl : string_loop (byteLen st.source + 1) st with
  | ok st1 =>
    simp only [hl] at h
    have h1 : StepOK st st1 := string_loop_step _ hl
    by_cases he : is_at_end st1 = true
    · rw [if_pos he] at h; cases h; exact h1.trans stepOK_add_error
    · rw [if_neg he] at h
      cases hs : sliceBytes st1.source st1.start st1.current with
      | none => simp [hs] at h
      | some value =>
        simp only [hs] at h
        cases hat : add_token st1 .literal (some (.str value)) with
        | none => simp [hat] at h
        | some st2 =>
          simp only [hat] at h
          cases ha : advance st2 with
          | none => simp [ha] at h
          | some p =>
            obtain ⟨c', st3⟩ := p
            simp only [ha] at h
            cases h
            exact h1.trans ((add_token_step (by decide) hat).trans (advance_step ha))
  | panicked => simp [hl] at h
  | fuelOut => simp [hl] at h

theorem finishNumber_step {st st' : ScanState} (h : finishNumber st = .ok st') :
    StepOK st st' := by
  unfold finishNumber at h
  cases hs : sliceBytes st.source st.start st.current with
  | none => simp [hs] at h
  | some text =>
    simp only [hs] at h
    cases hp : parseNum text with
    | none => simp [hp] at h
    | some q =>
      simp only [hp] at h
      exact add_token_step (by decide) (liftO_ok h)

theorem scanNumber_step {st st' : ScanState} (h : scanNumber st = .ok st') :
    StepOK st st' := by
  unfold scanNumber at h
  cases hl : digit_loop (byteLen st.source + 1) st with
  | ok st1 =>
    simp only [hl] at h
    have h1 : StepOK st st1 := digit_loop_step _ hl
    cases hp : peek st1 with
    | none => simp [hp] at h
    | some c =>
      simp only [hp] at h
      by_cases hc : (c == '.') = true
      · rw [if_pos hc] at h
        cases hpn : peek_next st1 with
        | none => simp [hpn] at h
        | some c2 =>
          simp only [hpn] at h
          by_cases hd : is_digit c2 = true
          · rw [if_pos hd] at h
            cases ha : advance st1 with
            | none => simp [ha] at h
            | some p =>
              obtain ⟨c', st2⟩ := p
              simp only [ha] at h
              cases hl2 : digit_loop (byteLen st2.source + 1) st2 with
              | ok st3 =>
                simp only [hl2] at h
                exact h1.trans ((advance_step ha).trans
                  ((digit_loop_step _ hl2).trans (finishNumber_step h)))
              | panicked => simp [hl2] at h
              | fuelOut => simp [hl2] at h
          · rw [if_neg hd] at h; exact h1.trans (finishNumber_step h)
      · rw [if_neg hc] at h; exact h1.trans (finishNumber_step h)
  | panicked => simp [hl] at h
  | fuelOut => simp [hl] at h

theorem scanIdentifier_step {st st' : ScanState}
    (h : scanIdentifier st = .ok st') : StepOK st st' := by
  unfold scanIdentifier at h
  cases hl : ident_loop (byteLen st.source + 1) st with
  | ok st1 =>
    simp only [hl] at h
    have h1 : StepOK st st1 := ident_loop_step _ hl
    cases hs : sliceBytes st1.source st1.start st1.current with
    | none => simp [hs] at h
    | some text =>
      simp only [hs] at h
      cases hk : keywordLookup text with
      | some kw =>
        simp only [hk] at h
        exact h1.trans (add_token_without_literal_step (keywordLookup_ne_eof hk) (liftO_ok h))
      | none =>
        simp only [hk] at h
        exact h1.trans (add_token_step (by decide) (liftO_ok h))
  | panicked => simp [hl] at h
  | fuelOut => simp [hl] at h

theorem matchesChar_step_eq {st st2 : ScanState} {c : Char} {m : Bool}
    (h : matchesChar st c = (m, st2)) : StepOK st st2 := by
  have := @matchesChar_step st c
  rwa [h] at this

theorem scan_token_step {st st' : ScanState} (h : scan_token st = .ok st') :
    StepOK st st' := by
  unfold scan_token at h
  cases ha : advance st with
  | none => simp [ha] at h
  | some p =>
    obtain ⟨c, st1⟩ := p
    simp only [ha] at h
    have h0 : StepOK st st1 := advance_step ha
    refine h0.trans ?_
    split at h
    · exact add_token_without_literal_step (by decide) (liftO_ok h)
    · exact add_token_without_literal_step (by decide) (liftO_ok h)
    · exact add_token_without_literal_step (by decide) (liftO_ok h)
    · exact add_token_without_literal_step (by decide) (liftO_ok h)
    · exact add_token_without_literal_step (by decide) (liftO_ok h)
    · exact add_token_without_literal_step (by decide) (liftO_ok h)
    · exact add_token_without_literal_step (by decide) (liftO_ok h)
    · exact add_token_without_literal_step (by decide) (liftO_ok h)
    · exact add_token_without_literal_step (by decide) (liftO_ok h)
    · exact add_token_without_literal_step (by decide) (liftO_ok h)
    · rcases hm : matchesChar st1 '=' with ⟨m, st2⟩
      simp only [hm] at h
      exact (matchesChar_step_eq hm).trans
        (add_token_without_literal_step (by cases m <;> decide) (liftO_ok h))
    · rcases hm : matchesChar st1 '=' with ⟨m, st2⟩
      simp only [hm] at h
      exact (matchesChar_step_eq hm).trans
        (add_token_without_literal_step (by cases m <;> decide) (liftO_ok h))
    · rcases hm : matchesChar st1 '=' with ⟨m, st2⟩
      simp only [hm] at h
      exact (matchesChar_step_eq hm).trans
        (add_token_without_literal_step (by cases m <;> decide) (liftO_ok h))
    · rcases hm : matchesChar st1 '=' with ⟨m, st2⟩
      simp only [hm] at h
      exact (matchesChar_step_eq hm).trans
        (add_token_without_literal_step (by cases m <;> decide) (liftO_ok h))
    · rcases hm : matchesChar st1 '/' with ⟨m, st2⟩
      simp only [hm] at h
      refine (matchesChar_step_eq hm).trans ?_
      by_cases hmm : m = true
      · rw [if_pos hmm] at h
        exact comment_loop_step _ h
      · rw [if_neg hmm] at h
        exact add_token_without_literal_step (by decide) (liftO_ok h)
    · cases h; exact stepOK_self
    · cases h; exact stepOK_self
    · cases h; exact stepOK_self
    · cases h; exact stepOK_bump_line
    · exact scanString_step h
    · by_cases hd : is_digit c = true
      · rw [if_pos hd] at h
        exact scanNumber_step h
      · rw [if_neg hd] at h
        by_cases hal : is_alphabet c = true
        · rw [if_pos hal] at h
          exact scanIdentifier_step h
        · rw [if_neg hal] at h
          cases h
          exact stepOK_add_error

theorem scan_loop_step : ∀ (fuel : Nat) {st st' : ScanState},
    scan_loop fuel st = .ok st' → StepOK st st'
  | 0, st, st', h => by simp [scan_loop] at h
  | fuel + 1, st, st', h => by
    unfold scan_loop at h
    by_cases he : is_at_end st = true
    · rw [if_pos he] at h; cases h; exact stepOK_self
    · rw [if_neg he] at h
      cases hs : scan_token { st with start := st.current } with
      | ok st1 =>
        simp only [hs] at h
        exact (stepOK_set_start.trans (scan_token_step hs)).trans
          (scan_loop_step fuel h)
      | panicked => simp [hs] at h
      | fuelOut => simp [hs] at h

/-- Claim C9: for every source string, the token sequence returned by the
scanner's `scan_tokens` (when it returns one) ends with exactly one `Eof`
token — the last token is `Eof` and no earlier token is — and the token line
numbers are monotonically non-decreasing from first to last. -/
theorem C9_scan_eof_unique_lines_monotone (source : List Char)
    (ts : List Token) (h : scan_tokens source = .ok ts) :
    (∃ front lastTok, ts = front ++ [lastTok] ∧ lastTok.token_type = .eof ∧
      ∀ t ∈ front, t.token_type ≠ .eof) ∧
    List.Chain' (· ≤ ·) (ts.map Token.line) := by
  unfold scan_tokens at h
  cases hl : scan_loop (byteLen source + 1) ⟨source, [], 0, 0, 1, []⟩ with
  | ok st =>
    simp only [hl] at h
    cases h
    obtain ⟨-, -, new, htok, hb, hc⟩ := scan_loop_step _ hl
    simp only [List.nil_append] at htok
    constructor
    · refine ⟨st.tokens, ⟨.eof, [], none, st.line⟩, rfl, rfl, fun t ht => ?_⟩
      rw [htok] at ht
      exact (hb t ht).1
    · rw [htok, List.map_append]
      refine List.Chain'.append ?_ (List.chain'_singleton _) ?_
      · exact (List.chain'_map _).mpr hc
      · intro x hx y hy
        simp only [List.map_cons, List.map_nil, List.head?_cons,
          Option.mem_def, Option.some.injEq] at hy
        rw [List.getLast?_map] at hx
        simp only [Option.mem_def, Option.map_eq_some'] at hx
        obtain ⟨t, htl, rfl⟩ := hx
        subst hy
        exact (hb t (List.mem_of_mem_getLast? htl)).2.2
  | panicked => simp [hl] at h
  | fuelOut => simp [hl] at h

/-- Witness for C9 at the concrete source `"+"`. -/
theorem C9_scan_eof_unique_lines_monotone_witness :
    (∃ front lastTok,
        [(⟨.plus, ['+'], none, 1⟩ : Token), ⟨.eof, [], none, 1⟩] =
          front ++ [lastTok] ∧ lastTok.token_type = .eof ∧
        ∀ t ∈ front, t.token_type ≠ .eof) ∧
    List.Chain' (· ≤ ·)
      (([(⟨.plus, ['+'], none, 1⟩ : Token), ⟨.eof, [], none, 1⟩]).map Token.line) :=
  C9_scan_eof_unique_lines_monotone ['+'] _ (by decide)

/-! ### ASCII totality of the scanner (claim C10) -/

theorem utf8Len_ascii {c : Char} (h : isAsciiChar c = true) : utf8Len c = 1 := by
  unfold isAsciiChar at h
  unfold utf8Len
  rw [if_pos (by simpa using h)]

theorem byteLen_ascii : ∀ {s : List Char},
    s.all isAsciiChar = true → byteLen s = s.length
  | [], _ => rfl
  | c :: t, h => by
    rw [List.all_cons, Bool.and_eq_true] at h
    have ih := byteLen_ascii h.2
    unfold byteLen at ih ⊢
    simp only [List.map_cons, List.sum_cons, List.length_cons]
    rw [utf8Len_ascii h.1, ih]
    omega

theorem boundaryIdx_ascii : ∀ {s : List Char} (n : Nat),
    s.all isAsciiChar = true →
    boundaryIdx s n = if n ≤ s.length then some n else none
  | s, 0, _ => by
    cases s <;> simp [boundaryIdx]
  | [], n + 1, _ => by simp [boundaryIdx]
  | c :: t, n + 1, h => by
    rw [List.all_cons, Bool.and_eq_true] at h
    unfold boundaryIdx
    rw [utf8Len_ascii h.1, if_pos (by omega)]
    simp only [Nat.add_sub_cancel]
    rw [boundaryIdx_ascii n h.2]
    by_cases hn : n ≤ t.length
    · rw [if_pos hn, if_pos (by simpa using hn)]
      simp
    · rw [if_neg hn, if_neg (by simpa using hn)]
      simp

theorem sliceBytes_ascii {s : List Char} {a b : Nat}
    (h : s.all isAsciiChar = true) (hab : a ≤ b) (hb : b ≤ s.length) :
    sliceBytes s a b = some ((s.drop a).take (b - a)) := by
  unfold sliceBytes
  rw [if_pos hab, boundaryIdx_ascii a h, boundaryIdx_ascii b h,
    if_pos (le_trans hab hb), if_pos hb]

theorem is_at_end_ascii {st : ScanState}
    (h : st.source.all isAsciiChar = true) :
    is_at_end st = decide (st.source.length ≤ st.current) := by
  unfold is_at_end
  rw [byteLen_ascii h]

theorem get?_isAscii {s : List Char} {i : Nat} {c : Char}
    (h : s.all isAsciiChar = true) (hg : s.get? i = some c) :
    isAsciiChar c = true :=
  List.all_eq_true.mp h c (by
    have := List.get?_mem hg
    exact this)

/-- The part of the source between two cursor positions. -/
def seg (s : List Char) (a b : Nat) : List Char := (s.drop a).take (b - a)

theorem seg_self {s : List Char} {a : Nat} : seg s a a = by exact [] := by
  simp [seg]

theorem seg_cons {s : List Char} {a b : Nat} {c : Char}
    (hg : s.get? a = some c) (hab : a < b) :
    seg s a b = c :: seg s (a + 1) b := by
  unfold seg
  obtain ⟨ha, hget⟩ := List.get?_eq_some.mp hg
  rw [List.get_eq_getElem] at hget
  rw [List.drop_eq_getElem_cons ha, hget]
  have : b - a = (b - (a + 1)) + 1 := by omega
  rw [this, List.take_succ_cons]

theorem seg_append {s : List Char} {a m b : Nat} (ham : a ≤ m) (hmb : m ≤ b) :
    seg s a b = seg s a m ++ seg s m b := by
  unfold seg
  have hsplit : b - a = (m - a) + (b - m) := by omega
  rw [hsplit, List.take_add, List.drop_drop]
  have hm : a + (m - a) = m := by omega
  rw [hm]

theorem takeWhile_all {P : Char → Bool} : ∀ {xs : List Char},
    xs.all P = true → xs.takeWhile P = xs ∧ xs.dropWhile P = []
  | [], _ => ⟨rfl, rfl⟩
  | x :: xs, h => by
    rw [List.all_cons, Bool.and_eq_true] at h
    have ih := takeWhile_all h.2
    simp [List.takeWhile_cons, List.dropWhile_cons, h.1, ih.1, ih.2]

theorem takeWhile_append_stop {P : Char → Bool} (y : Char) (ys : List Char)
    (hy : P y = false) : ∀ {xs : List Char}, xs.all P = true →
    (xs ++ y :: ys).takeWhile P = xs ∧ (xs ++ y :: ys).dropWhile P = y :: ys
  | [], _ => by simp [List.takeWhile_cons, List.dropWhile_cons, hy]
  | x :: xs, h => by
    rw [List.all_cons, Bool.and_eq_true] at h
    have ih := takeWhile_append_stop y ys hy h.2
    simp [List.takeWhile_cons, List.dropWhile_cons, h.1, ih.1, ih.2]

theorem parseNum_digits {xs : List Char} (hne : xs ≠ [])
    (hall : xs.all is_digit = true) : ∃ q, parseNum xs = some q := by
  unfold parseNum
  obtain ⟨ht, hd⟩ := takeWhile_all hall
  simp only [ht, hd]
  rw [if_neg (by simpa [List.isEmpty_iff] using hne)]
  exact ⟨_, rfl⟩

theorem parseNum_dot {A B : List Char} (hA : A ≠ [])
    (hallA : A.all is_digit = true) (hB : B ≠ [])
    (hallB : B.all is_digit = true) :
    ∃ q, parseNum (A ++ '.' :: B) = some q := by
  unfold parseNum
  obtain ⟨ht, hd⟩ := takeWhile_append_stop '.' B (by decide) hallA
  simp only [ht, hd]
  rw [if_neg (by simpa [List.isEmpty_iff] using hA)]
  rw [if_neg (by simp [List.isEmpty_iff, hB, hallB])]
  exact ⟨_, rfl⟩

theorem peek_of_lt {st : ScanState} (hA : st.source.all isAsciiChar = true)
    (hc : st.current < st.source.length) :
    peek st = st.source.get? st.current := by
  unfold peek
  rw [is_at_end_ascii hA]
  rw [if_neg (by simp; omega)]

theorem peek_of_ge {st : ScanState} (hA : st.source.all isAsciiChar = true)
    (hc : st.source.length ≤ st.current) :
    peek st = some (Char.ofNat 0) := by
  unfold peek
  rw [is_at_end_ascii hA]
  rw [if_pos (by simpa using hc)]

/-- State equality up to the cursor (the loops that emit nothing and touch
no line counter). -/
def SameExceptCurrent (st st' : ScanState) : Prop :=
  st'.source = st.source ∧ st'.tokens = st.tokens ∧ st'.start = st.start ∧
  st'.line = st.line ∧ st'.errors = st.errors ∧ st.current ≤ st'.current

/-- State equality up to the cursor and line counter (the string loop). -/
def SameExceptCurLine (st st' : ScanState) : Prop :=
  st'.source = st.source ∧ st'.tokens = st.tokens ∧ st'.start = st.start ∧
  st'.errors = st.errors ∧ st.current ≤ st'.current

theorem comment_loop_total : ∀ (fuel : Nat) (st : ScanState),
    st.source.all isAsciiChar = true →
    st.current ≤ st.source.length →
    st.source.length < st.current + fuel →
    ∃ st', comment_loop fuel st = .ok st' ∧ SameExceptCurrent st st' ∧
      st'.current ≤ st.source.length
  | 0, st, _, hc, hf => by omega
  | fuel + 1, st, hA, hc, hf => by
    unfold comment_loop
    by_cases he : st.source.length ≤ st.current
    · simp only [peek_of_ge hA he]
      rw [if_neg (by simp [is_at_end_ascii hA, he])]
      exact ⟨st, rfl, ⟨rfl, rfl, rfl, rfl, rfl, le_refl _⟩, hc⟩
    · push_neg at he
      cases hg : st.source.get? st.current with
      | none => exact absurd (List.get?_eq_none.mp hg) (by omega)
      | some c =>
        simp only [peek_of_lt hA he, hg]
        by_cases hcnd : ((c != '\n') && !(is_at_end st)) = true
        · rw [if_pos hcnd]
          unfold advance
          simp only [hg]
          obtain ⟨st', h1, h2, h3⟩ :=
            comment_loop_total fuel { st with current := st.current + 1 }
              hA (by simpa using he) (by simpa using by omega)
          refine ⟨st', h1, ?_, h3⟩
          obtain ⟨a, b, c', d, e, f⟩ := h2
          exact ⟨a, b, c', d, e, by simpa using Nat.le_trans (Nat.le_succ _) f⟩
        · rw [if_neg hcnd]
          exact ⟨st, rfl, ⟨rfl, rfl, rfl, rfl, rfl, le_refl _⟩, hc⟩

theorem digit_loop_total : ∀ (fuel : Nat) (st : ScanState),
    st.source.all isAsciiChar = true →
    st.current ≤ st.source.length →
    st.source.length < st.current + fuel →
    ∃ st', digit_loop fuel st = .ok st' ∧ SameExceptCurrent st st' ∧
      st'.current ≤ st.source.length ∧
      (seg st.source st.current st'.current).all is_digit = true ∧
      (∀ c2, st'.current < st.source.length →
        st.source.get? st'.current = some c2 → is_digit c2 = false)
  | 0, st, _, hc, hf => by omega
  | fuel + 1, st, hA, hc, hf => by
    unfold digit_loop
    by_cases he : st.source.length ≤ st.current
    · simp only [peek_of_ge hA he]
      rw [if_neg (by decide)]
      refine ⟨st, rfl, ⟨rfl, rfl, rfl, rfl, rfl, le_refl _⟩, hc, ?_, ?_⟩
      · simp [seg]
      · intro c2 hlt _; omega
    · push_neg at he
      cases hg : st.source.get? st.current with
      | none => exact absurd (List.get?_eq_none.mp hg) (by omega)
      | some c =>
        simp only [peek_of_lt hA he, hg]
        by_cases hd : is_digit c = true
        · rw [if_pos hd]
          unfold advance
          simp only [hg]
          obtain ⟨st', h1, h2, h3, h4, h5⟩ :=
            digit_loop_total fuel { st with current := st.current + 1 } hA
              (by simpa using he) (by simp; omega)
          have hcur1 : st.current + 1 ≤ st'.current := by
            simpa using h2.2.2.2.2.2
          refine ⟨st', h1, ?_, by simpa using h3, ?_, ?_⟩
          · obtain ⟨a, b, c', d, e, f⟩ := h2
            exact ⟨a, b, c', d, e, by omega⟩
          · rw [seg_cons hg (by omega), List.all_cons, Bool.and_eq_true]
            exact ⟨hd, by simpa using h4⟩
          · intro c2 hlt hg2
            exact h5 c2 (by simpa using hlt) (by simpa using hg2)
        · rw [if_neg hd]
          refine ⟨st, rfl, ⟨rfl, rfl, rfl, rfl, rfl, le_refl _⟩, hc, ?_, ?_⟩
          · simp [seg]
          · intro c2 _ hg2
            rw [hg] at hg2
            cases hg2
            exact Bool.not_eq_true _ |>.mp hd

theorem ident_loop_total : ∀ (fuel : Nat) (st : ScanState),
    st.source.all isAsciiChar = true →
    st.current ≤ st.source.length →
    st.source.length < st.current + fuel →
    ∃ st', ident_loop fuel st = .ok st' ∧ SameExceptCurrent st st' ∧
      st'.current ≤ st.source.length
  | 0, st, _, hc, hf => by omega
  | fuel + 1, st, hA, hc, hf => by
    unfold ident_loop
    by_cases he : st.source.length ≤ st.current
    · simp only [peek_of_ge hA he]
      rw [if_neg (by decide)]
      exact ⟨st, rfl, ⟨rfl, rfl, rfl, rfl, rfl, le_refl _⟩, hc⟩
    · push_neg at he
      cases hg : st.source.get? st.current with
      | none => exact absurd (List.get?_eq_none.mp hg) (by omega)
      | some c =>
        simp only [peek_of_lt hA he, hg]
        by_cases hd : is_alpha_numeric c = true
        · rw [if_pos hd]
          unfold advance
          simp only [hg]
          obtain ⟨st', h1, h2, h3⟩ :=
            ident_loop_total fuel { st with current := st.current + 1 } hA
              (by simpa using he) (by simp; omega)
          refine ⟨st', h1, ?_, by simpa using h3⟩
          obtain ⟨a, b, c', d, e, f⟩ := h2
          simp only at f
          exact ⟨a, b, c', d, e, by omega⟩
        · rw [if_neg hd]
          exact ⟨st, rfl, ⟨rfl, rfl, rfl, rfl, rfl, le_refl _⟩, hc⟩

theorem bump_source {c : Char} {st : ScanState} :
    (bump_if_newline c st).source = st.source := by
  unfold bump_if_newline; split <;> rfl

theorem bump_tokens {c : Char} {st : ScanState} :
    (bump_if_newline c st).tokens = st.tokens := by
  unfold bump_if_newline; split <;> rfl

theorem bump_start {c : Char} {st : ScanState} :
    (bump_if_newline c st).start = st.start := by
  unfold bump_if_newline; split <;> rfl

theorem bump_current {c : Char} {st : ScanState} :
    (bump_if_newline c st).current = st.current := by
  unfold bump_if_newline; split <;> rfl

theorem bump_errors {c : Char} {st : ScanState} :
    (bump_if_newline c st).errors = st.errors := by
  unfold bump_if_newline; split <;> rfl

theorem string_loop_total : ∀ (fuel : Nat) (st : ScanState),
    st.source.all isAsciiChar = true →
    st.current ≤ st.source.length →
    st.source.length < st.current + fuel →
    ∃ st', string_loop fuel st = .ok st' ∧ SameExceptCurLine st st' ∧
      st'.current ≤ st.source.length ∧
      (st.source.length ≤ st'.current ∨
        st.source.get? st'.current = some '"')
  | 0, st, _, hc, hf => by omega
  | fuel + 1, st, hA, hc, hf => by
    unfold string_loop
    by_cases he : st.source.length ≤ st.current
    · simp only [peek_of_ge hA he]
      rw [if_neg (by simp [is_at_end_ascii hA, he])]
      exact ⟨st, rfl, ⟨rfl, rfl, rfl, rfl, le_refl _⟩, hc, Or.inl he⟩
    · push_neg at he
      cases hg : st.source.get? st.current with
      | none => exact absurd (List.get?_eq_none.mp hg) (by omega)
      | some c =>
        simp only [peek_of_lt hA he, hg]
        by_cases hq : c = '"'
        · rw [if_neg (by simp [hq])]
          exact ⟨st, rfl, ⟨rfl, rfl, rfl, rfl, le_refl _⟩, hc,
            Or.inr (hq ▸ hg)⟩
        · rw [if_pos (by simp [hq, is_at_end_ascii hA]; omega)]
          by_cases hnl : (c == '\n') = true
          · have hb : bump_if_newline c st = { st with line := st.line + 1 } := by
              unfold bump_if_newline; rw [if_pos hnl]
            rw [hb]
            unfold advance
            simp only [hg]
            obtain ⟨st', h1, h2, h3, h4⟩ :=
              string_loop_total fuel
                { st with line := st.line + 1, current := st.current + 1 }
                (by simpa using hA) (by simpa using he) (by simp; omega)
            refine ⟨st', h1, ?_, by simpa using h3, by simpa using h4⟩
            obtain ⟨a, b, c', d, f⟩ := h2
            simp only at a b c' d f
            exact ⟨a, b, c', d, by omega⟩
          · have hb : bump_if_newline c st = st := by
              unfold bump_if_newline; rw [if_neg hnl]
            rw [hb]
            unfold advance
            simp only [hg]
            obtain ⟨st', h1, h2, h3, h4⟩ :=
              string_loop_total fuel { st with current := st.current + 1 }
                (by simpa using hA) (by simpa using he) (by simp; omega)
            refine ⟨st', h1, ?_, by simpa using h3, by simpa using h4⟩
            obtain ⟨a, b, c', d, f⟩ := h2
            simp only at a b c' d f
            exact ⟨a, b, c', d, by omega⟩

theorem peek_next_of_ge {st : ScanState}
    (hA : st.source.all isAsciiChar = true)
    (h : st.source.length ≤ st.current + 1) :
    peek_next st = some (Char.ofNat 0) := by
  unfold peek_next
  rw [byteLen_ascii hA, if_pos h]

theorem peek_next_of_lt {st : ScanState}
    (hA : st.source.all isAsciiChar = true)
    (h : st.current + 1 < st.source.length) :
    peek_next st = st.source.get? (st.current + 1) := by
  unfold peek_next
  rw [byteLen_ascii hA, if_neg (by omega)]

theorem sliceBytes_seg {s : List Char} {a b : Nat}
    (h : s.all isAsciiChar = true) (hab : a ≤ b) (hb : b ≤ s.length) :
    sliceBytes s a b = some (seg s a b) :=
  sliceBytes_ascii h hab hb

theorem add_token_total {st : ScanState} (tt : TokenType) (lit : Option Literal)
    (hA : st.source.all isAsciiChar = true)
    (hse : st.start ≤ st.current) (hcur : st.current ≤ st.source.length) :
    add_token st tt lit = some { st with tokens :=
      st.tokens ++ [⟨tt, seg st.source st.start st.current, lit, st.line⟩] } := by
  unfold add_token
  rw [sliceBytes_seg hA hse hcur]

theorem matchesChar_total {st : ScanState} {c : Char}
    (hA : st.source.all isAsciiChar = true)
    (hcur : st.current ≤ st.source.length) :
    (matchesChar st c).2.source = st.source ∧
    (matchesChar st c).2.start = st.start ∧
    (matchesChar st c).2.line = st.line ∧
    (matchesChar st c).2.tokens = st.tokens ∧
    (matchesChar st c).2.errors = st.errors ∧
    st.current ≤ (matchesChar st c).2.current ∧
    (matchesChar st c).2.current ≤ st.source.length := by
  unfold matchesChar
  by_cases he : is_at_end st = true
  · rw [if_pos he]
    exact ⟨rfl, rfl, rfl, rfl, rfl, le_refl _, hcur⟩
  · rw [if_neg he]
    rw [is_at_end_ascii hA] at he
    simp only [decide_eq_true_eq] at he
    by_cases hm : (st.source.get? st.current == some c) = true
    · rw [if_pos hm]
      exact ⟨rfl, rfl, rfl, rfl, rfl, Nat.le_succ _, by simp; omega⟩
    · rw [if_neg hm]
      exact ⟨rfl, rfl, rfl, rfl, rfl, le_refl _, hcur⟩

theorem scanString_total {st : ScanState}
    (hA : st.source.all isAsciiChar = true)
    (hse : st.start ≤ st.current) (hcur : st.current ≤ st.source.length) :
    ∃ st', scanString st = .ok st' ∧ st'.source = st.source ∧
      st.current ≤ st'.current ∧ st'.current ≤ st.source.length := by
  unfold scanString
  have hbl : byteLen st.source = st.source.length := byteLen_ascii hA
  obtain ⟨st1, h1, ⟨hs1, ht1, hst1, herr1, hc1⟩, hle1, hexit⟩ :=
    string_loop_total (byteLen st.source + 1) st hA hcur (by omega)
  simp only [h1]
  by_cases hend : st.source.length ≤ st1.current
  · rw [if_pos (by rw [is_at_end_ascii (hs1 ▸ hA), hs1]; simpa using hend)]
    exact ⟨_, rfl, hs1, hc1, hle1⟩
  · rw [if_neg (by rw [is_at_end_ascii (hs1 ▸ hA), hs1]; simpa using hend)]
    push_neg at hend
    have hq : st.source.get? st1.current = some '"' := by
      rcases hexit with h | h
      · omega
      · exact h
    simp only [sliceBytes_seg (hs1 ▸ hA) (by omega : st1.start ≤ st1.current)
        (by rw [hs1]; omega),
      add_token_total _ _ (hs1 ▸ hA) (by omega : st1.start ≤ st1.current)
        (by rw [hs1]; omega)]
    unfold advance
    simp only [hs1, hq]
    refine ⟨_, rfl, by simp [hs1], by simp; omega, by simp; omega⟩

theorem finishNumber_total {st : ScanState}
    (hA : st.source.all isAsciiChar = true)
    (hse : st.start ≤ st.current) (hcur : st.current ≤ st.source.length)
    (hq : ∃ q, parseNum (seg st.source st.start st.current) = some q) :
    ∃ st', finishNumber st = .ok st' ∧ st'.source = st.source ∧
      st'.current = st.current := by
  unfold finishNumber
  obtain ⟨q, hqq⟩ := hq
  simp only [sliceBytes_seg hA hse hcur, hqq, add_token_total _ _ hA hse hcur,
    liftO]
  exact ⟨_, rfl, rfl, rfl⟩

theorem scanIdentifier_total {st : ScanState}
    (hA : st.source.all isAsciiChar = true)
    (hse : st.start ≤ st.current) (hcur : st.current ≤ st.source.length) :
    ∃ st', scanIdentifier st = .ok st' ∧ st'.source = st.source ∧
      st.current ≤ st'.current ∧ st'.current ≤ st.source.length := by
  unfold scanIdentifier
  obtain ⟨st1, h1, ⟨hs1, ht1, hst1, hl1, herr1, hc1⟩, hle1⟩ :=
    ident_loop_total (byteLen st.source + 1) st hA hcur
      (by rw [byteLen_ascii hA]; omega)
  simp only [h1,
    sliceBytes_seg (hs1 ▸ hA) (by omega : st1.start ≤ st1.current)
      (by rw [hs1]; omega)]
  cases hk : keywordLookup (seg st1.source st1.start st1.current) with
  | some kw =>
    simp only [hk]
    unfold add_token_without_literal
    simp only [add_token_total _ _ (hs1 ▸ hA)
      (by omega : st1.start ≤ st1.current) (by rw [hs1]; omega), liftO]
    exact ⟨_, rfl, by simpa using hs1, by simpa using hc1, by simpa using hle1⟩
  | none =>
    simp only [hk]
    simp only [add_token_total _ _ (hs1 ▸ hA)
      (by omega : st1.start ≤ st1.current) (by rw [hs1]; omega), liftO]
    exact ⟨_, rfl, by simpa using hs1, by simpa using hc1, by simpa using hle1⟩

theorem scanNumber_total {st : ScanState} {c0 : Char}
    (hA : st.source.all isAsciiChar = true)
    (hstart : st.current = st.start + 1)
    (hg0 : st.source.get? st.start = some c0) (hd0 : is_digit c0 = true)
    (hcur : st.current ≤ st.source.length) :
    ∃ st', scanNumber st = .ok st' ∧ st'.source = st.source ∧
      st.current ≤ st'.current ∧ st'.current ≤ st.source.length := by
  unfold scanNumber
  obtain ⟨st1, h1, ⟨hs1, ht1, hst1, hl1, herr1, hc1⟩, hle1, hseg1, hexit1⟩ :=
    digit_loop_total (byteLen st.source + 1) st hA hcur
      (by rw [byteLen_ascii hA]; omega)
  simp only [h1]
  have hA1 : st1.source.all isAsciiChar = true := hs1 ▸ hA
  -- the integer part, including the leading digit consumed by `scan_token`
  have hshape1 : (seg st.source st.start st1.current).all is_digit = true := by
    rw [seg_cons hg0 (by omega), List.all_cons, Bool.and_eq_true]
    exact ⟨hd0, by rw [← hstart]; exact hseg1⟩
  have hne1 : seg st.source st.start st1.current ≠ [] := by
    rw [seg_cons hg0 (by omega)]
    simp
  have hfin1 : ∃ st', finishNumber st1 = .ok st' ∧ st'.source = st.source ∧
      st.current ≤ st'.current ∧ st'.current ≤ st.source.length := by
    obtain ⟨st', hf, hfs, hfc⟩ := finishNumber_total hA1
      (by omega : st1.start ≤ st1.current) (by rw [hs1]; omega)
      (by rw [hs1, hst1]; exact parseNum_digits hne1 hshape1)
    exact ⟨st', hf, by rw [hfs, hs1], by omega, by rw [hfc, hs1] at *; omega⟩
  by_cases hend : st.source.length ≤ st1.current
  · rw [peek_of_ge hA1 (by rw [hs1]; exact hend)]
    simp only []
    rw [if_neg (by decide)]
    exact hfin1
  · push_neg at hend
    cases hgc : st.source.get? st1.current with
    | none => exact absurd (List.get?_eq_none.mp hgc) (by omega)
    | some c =>
      rw [peek_of_lt hA1 (by rw [hs1]; exact hend)]
      simp only [hs1, hgc]
      by_cases hdot : (c == '.') = true
      · rw [if_pos hdot]
        replace hdot : c = '.' := by simpa using hdot
        subst hdot
        by_cases hend2 : st.source.length ≤ st1.current + 1
        · rw [peek_next_of_ge hA1 (by rw [hs1]; exact hend2)]
          simp only []
          rw [if_neg (by decide)]
          exact hfin1
        · push_neg at hend2
          cases hgc2 : st.source.get? (st1.current + 1) with
          | none => exact absurd (List.get?_eq_none.mp hgc2) (by omega)
          | some c2 =>
            rw [peek_next_of_lt hA1 (by rw [hs1]; exact hend2)]
            simp only [hs1, hgc2]
            by_cases hd2 : is_digit c2 = true
            · rw [if_pos hd2]
              unfold advance
              simp only [hs1, hgc]
              obtain ⟨st3, h3, ⟨hs3, ht3, hst3, hl3, herr3, hc3⟩, hle3, hseg3, hexit3⟩ :=
                digit_loop_total (byteLen st.source + 1)
                  { st1 with current := st1.current + 1 }
                  (by simpa [hs1] using hA) (by simpa [hs1] using hend)
                  (by simp [hs1, byteLen_ascii hA]; omega)
              simp only [hs1] at h3
              simp only [h3]
              simp only [hs1] at hs3 hle3 hseg3 hexit3
              simp only at hc3 ht3 hst3 hl3 herr3
              -- the fractional digit loop consumed at least one digit
              have hfrac_ne : st1.current + 1 < st3.current := by
                rcases Nat.lt_or_ge (st1.current + 1) st3.current with h | h
                · exact h
                · exfalso
                  have heq : st3.current = st1.current + 1 := by omega
                  have := hexit3 c2 (by omega) (by rw [heq]; exact hgc2)
                  rw [this] at hd2
                  exact absurd hd2 (by simp)
              -- decompose the slice: digits, dot, digits
              have hsegall : seg st.source st.start st3.current =
                  seg st.source st.start st1.current ++
                    '.' :: seg st.source (st1.current + 1) st3.current := by
                rw [seg_append (by omega : st.start ≤ st1.current)
                  (by omega : st1.current ≤ st3.current)]
                rw [seg_cons hgc (by omega)]
              have hB_ne : seg st.source (st1.current + 1) st3.current ≠ [] := by
                rw [seg_cons hgc2 (by omega)]
                simp
              have hB_all : (seg st.source (st1.current + 1) st3.current).all
                  is_digit = true := hseg3
              obtain ⟨st', hf, hfs, hfc⟩ := @finishNumber_total
                st3 (hs3 ▸ hA)
                (by omega : st3.start ≤ st3.current) (by rw [hs3]; omega)
                (by
                  rw [hs3, hst3, hst1]
                  rw [hsegall]
                  exact parseNum_dot hne1 hshape1 hB_ne hB_all)
              exact ⟨st', hf, by rw [hfs, hs3], by omega, by rw [hfc, hs3] at *; omega⟩
            · rw [if_neg hd2]
              exact hfin1
      · rw [if_neg hdot]
        exact hfin1

/-- Outcome predicate for a successful, cursor-advancing scanner step on an
ASCII source. -/
def TokOK (src : List Char) (cur : Nat) (r : SRes ScanState) : Prop :=
  ∃ st', r = .ok st' ∧ st'.source = src ∧ cur < st'.current ∧
    st'.current ≤ src.length

theorem TokOK_add_token {src : List Char} {cur : Nat} {st1 : ScanState}
    (tt : TokenType) (lit : Option Literal)
    (hA : st1.source.all isAsciiChar = true) (hsrc : st1.source = src)
    (hse : st1.start ≤ st1.current) (hcur2 : st1.current ≤ src.length)
    (hlt : cur < st1.current) :
    TokOK src cur (liftO (add_token st1 tt lit)) := by
  rw [add_token_total tt lit hA hse (hsrc ▸ hcur2)]
  exact ⟨_, rfl, by simpa using hsrc, by simpa using hlt, by simpa using hcur2⟩

theorem scan_token_total {st : ScanState}
    (hA : st.source.all isAsciiChar = true)
    (hse : st.start = st.current)
    (hcur : st.current < st.source.length) :
    TokOK st.source st.current (scan_token st) := by
  unfold scan_token
  cases hg : st.source.get? st.current with
  | none => exact absurd (List.get?_eq_none.mp hg) (by omega)
  | some c =>
    unfold advance
    simp only [hg]
    split
    · exact TokOK_add_token _ _ hA rfl (by simp [hse]) (by simpa using hcur)
        (by simp)
    · exact TokOK_add_token _ _ hA rfl (by simp [hse]) (by simpa using hcur)
        (by simp)
    · exact TokOK_add_token _ _ hA rfl (by simp [hse]) (by simpa using hcur)
        (by simp)
    · exact TokOK_add_token _ _ hA rfl (by simp [hse]) (by simpa using hcur)
        (by simp)
    · exact TokOK_add_token _ _ hA rfl (by simp [hse]) (by simpa using hcur)
        (by simp)
    · exact TokOK_add_token _ _ hA rfl (by simp [hse]) (by simpa using hcur)
        (by simp)
    · exact TokOK_add_token _ _ hA rfl (by simp [hse]) (by simpa using hcur)
        (by simp)
    · exact TokOK_add_token _ _ hA rfl (by simp [hse]) (by simpa using hcur)
        (by simp)
    · exact TokOK_add_token _ _ hA rfl (by simp [hse]) (by simpa using hcur)
        (by simp)
    · exact TokOK_add_token _ _ hA rfl (by simp [hse]) (by simpa using hcur)
        (by simp)
    · rcases hm : matchesChar
        { st with start := st.start, current := st.current + 1 } '=' with ⟨m, st2⟩
      have hmt := @matchesChar_total
        { st with start := st.start, current := st.current + 1 }
        '=' hA (by simpa using hcur)
      rw [hm] at hmt
      simp only [hm]
      unfold add_token_without_literal
      exact TokOK_add_token _ _ (hmt.1 ▸ hA) hmt.1
        (by simp only at hmt ⊢; omega)
        (by simp only at hmt ⊢; omega)
        (by simp only at hmt ⊢; omega)
    · rcases hm : matchesChar
        { st with start := st.start, current := st.current + 1 } '=' with ⟨m, st2⟩
      have hmt := @matchesChar_total
        { st with start := st.start, current := st.current + 1 }
        '=' hA (by simpa using hcur)
      rw [hm] at hmt
      simp only [hm]
      unfold add_token_without_literal
      exact TokOK_add_token _ _ (hmt.1 ▸ hA) hmt.1
        (by simp only at hmt ⊢; omega)
        (by simp only at hmt ⊢; omega)
        (by simp only at hmt ⊢; omega)
    · rcases hm : matchesChar
        { st with start := st.start, current := st.current + 1 } '=' with ⟨m, st2⟩
      have hmt := @matchesChar_total
        { st with start := st.start, current := st.current + 1 }
        '=' hA (by simpa using hcur)
      rw [hm] at hmt
      simp only [hm]
      unfold add_token_without_literal
      exact TokOK_add_token _ _ (hmt.1 ▸ hA) hmt.1
        (by simp only at hmt ⊢; omega)
        (by simp only at hmt ⊢; omega)
        (by simp only at hmt ⊢; omega)
    · rcases hm : matchesChar
        { st with start := st.start, current := st.current + 1 } '=' with ⟨m, st2⟩
      have hmt := @matchesChar_total
        { st with start := st.start, current := st.current + 1 }
        '=' hA (by simpa using hcur)
      rw [hm] at hmt
      simp only [hm]
      unfold add_token_without_literal
      exact TokOK_add_token _ _ (hmt.1 ▸ hA) hmt.1
        (by simp only at hmt ⊢; omega)
        (by simp only at hmt ⊢; omega)
        (by simp only at hmt ⊢; omega)
    · rcases hm : matchesChar
        { st with start := st.start, current := st.current + 1 } '/' with ⟨m, st2⟩
      have hmt := @matchesChar_total
        { st with start := st.start, current := st.current + 1 }
        '/' hA (by simpa using hcur)
      rw [hm] at hmt
      simp only [hm]
      by_cases hmm : m = true
      · rw [if_pos hmm]
        simp only at hmt
        obtain ⟨hm1, hm2, hm3, hm4, hm5, hm6, hm7⟩ := hmt
        obtain ⟨st', h1, ⟨a, b, c', d, e, f⟩, hle⟩ :=
          comment_loop_total (byteLen st2.source + 1) st2 (hm1 ▸ hA)
            (by rw [hm1]; exact hm7)
            (by rw [byteLen_ascii (hm1 ▸ hA), hm1]; omega)
        refine ⟨st', h1, by rw [a, hm1], by omega, ?_⟩
        rw [hm1] at hle
        exact hle
      · rw [if_neg hmm]
        unfold add_token_without_literal
        exact TokOK_add_token _ _ (hmt.1 ▸ hA) hmt.1
          (by simp only at hmt ⊢; omega)
          (by simp only at hmt ⊢; omega)
          (by simp only at hmt ⊢; omega)
    · exact ⟨_, rfl, rfl, by simp, by simpa using hcur⟩
    · exact ⟨_, rfl, rfl, by simp, by simpa using hcur⟩
    · exact ⟨_, rfl, rfl, by simp, by simpa using hcur⟩
    · exact ⟨_, rfl, rfl, by simp, by simpa using hcur⟩
    · obtain ⟨st', h1, h2, h3, h4⟩ := @scanString_total
        { st with start := st.start, current := st.current + 1 }
        hA (by simp [hse]) (by simpa using hcur)
      exact ⟨st', h1, h2, by simp only at h3; omega, h4⟩
    · by_cases hd : is_digit c = true
      · rw [if_pos hd]
        obtain ⟨st', h1, h2, h3, h4⟩ := @scanNumber_total
          { st with start := st.start, current := st.current + 1 }
          c hA (by simp [hse]) (by simpa [hse] using hg) hd
          (by simpa using hcur)
        exact ⟨st', h1, h2, by simp only at h3; omega, h4⟩
      · rw [if_neg hd]
        by_cases hal : is_alphabet c = true
        · rw [if_pos hal]
          obtain ⟨st', h1, h2, h3, h4⟩ := @scanIdentifier_total
            { st with start := st.start, current := st.current + 1 }
            hA (by simp [hse]) (by simpa using hcur)
          exact ⟨st', h1, h2, by simp only at h3; omega, h4⟩
        · rw [if_neg hal]
          exact ⟨_, rfl, rfl, by simp, by simpa using hcur⟩

theorem scan_loop_total : ∀ (fuel : Nat) (st : ScanState),
    st.source.all isAsciiChar = true →
    st.current ≤ st.source.length →
    st.source.length < st.current + fuel →
    ∃ st', scan_loop fuel st = .ok st'
  | 0, st, _, hc, hf => by omega
  | fuel + 1, st, hA, hc, hf => by
    unfold scan_loop
    by_cases he : st.source.length ≤ st.current
    · rw [if_pos (by rw [is_at_end_ascii hA]; simpa using he)]
      exact ⟨st, rfl⟩
    · push_neg at he
      rw [if_neg (by rw [is_at_end_ascii hA]; simp; omega)]
      obtain ⟨st', hok, hsrc, hlt, hle⟩ :=
        @scan_token_total { st with start := st.current } hA rfl he
      simp only at hsrc hlt hle
      simp only [hok]
      exact scan_loop_total fuel st' (by rw [hsrc]; exact hA)
        (by rw [hsrc]; exact hle) (by rw [hsrc]; omega)

theorem scan_tokens_ascii_total (source : List Char)
    (hA : source.all isAsciiChar = true) :
    ∃ ts, scan_tokens source = .ok ts := by
  unfold scan_tokens
  obtain ⟨st', h⟩ := scan_loop_total (byteLen source + 1)
    ⟨source, [], 0, 0, 1, []⟩ hA (by simp) (by simp [byteLen_ascii hA])
  simp only [h]
  exact ⟨_, rfl⟩

/-- Claim C10: for every all-ASCII source the scanner terminates and returns
a token vector without panicking; this does not extend to arbitrary strings:
for some source containing a multi-byte (non-ASCII) character, `scan_tokens`
panics (the scanner advances by character count while testing end-of-input
and slicing by byte index). -/
theorem C10_ascii_total_nonascii_panics :
    (∀ source : List Char, source.all isAsciiChar = true →
      ∃ ts, scan_tokens source = .ok ts) ∧
    (∃ source : List Char, source.all isAsciiChar = false ∧
      scan_tokens source = .panicked) := by
  constructor
  · exact scan_tokens_ascii_total
  · exact ⟨['é'], by decide, by decide⟩

/-- Witness for C10's universally quantified conjunct at the concrete ASCII
source `"1+2"`. -/
theorem C10_ascii_total_nonascii_panics_witness :
    (∃ ts, scan_tokens ['1', '+', '2'] = .ok ts) ∧
    scan_tokens ['é'] = .panicked :=
  ⟨C10_ascii_total_nonascii_panics.1 ['1', '+', '2'] (by decide), by decide⟩

/-! ### Evaluator claims -/

theorem F_beq_zero_iff {b : F} : F.beq b (F.fin 0) = true ↔ b = F.fin 0 := by
  cases b <;> simp [F.beq]

theorem evaluate_binary_ok {e1 e2 : Expr} {op : Token} {a b : LoxValue}
    (h1 : evaluate e1 = .ok a) (h2 : evaluate e2 = .ok b) :
    evaluate (.binary e1 op e2) = visit_binary_op op a b := by
  unfold evaluate
  simp only [h1, h2]

/-- Claim C1 (code bug): with `Number(2)` and `Number(3)` as operands of `*`,
the evaluator returns `Number(5)` — the `Mul` implementation of `LoxValue`
computes `n + n2`, a sum — rather than the IEEE-754 product `Number(6)`;
`5 ≠ 2 * 3`. -/
theorem C1_mul_computes_sum :
    evaluate (.binary (.literal (.number (.fin 2))) ⟨.star, ['*'], none, 1⟩
      (.literal (.number (.fin 3)))) = .ok (.number (.fin 5)) ∧
    (5 : ℚ) ≠ 2 * 3 := by
  constructor
  · simp [evaluate, visit_binary_op, check_number_operands, LoxValue.mulOp,
      F.add]
    norm_num
  · norm_num

/-- Claim C2 (code bug): scanning the terminated string literal `"a"` emits a
`Literal` token whose `String` payload is `"a` — the byte slice
`source[start..current]` starts at the opening quote — not the characters
strictly between the quotes (which would be `a`); the closing quote is
consumed (the scan then emits only `Eof`). -/
theorem C2_string_payload_includes_quote :
    scan_tokens ['"', 'a', '"'] =
      .ok [⟨.literal, ['"', 'a'], some (.str ['"', 'a']), 1⟩,
           ⟨.eof, [], none, 1⟩] ∧
    (['"', 'a'] : List Char) ≠ ['a'] := by decide

/-- Claim C3 (code bug): on the token sequence for `( 1` (no closing paren),
the parser reports "Expected ')' after expression." at the offending `Eof`
token through the diagnostics collaborator, but then aborts via `panic!` in
`consume` instead of returning an `Err` parse failure to its caller. -/
theorem C3_missing_rparen_panics :
    parse [⟨.leftParen, ['('], none, 1⟩,
           ⟨.literal, ['1'], some (.number (.fin 1)), 1⟩,
           ⟨.eof, [], none, 1⟩] =
      .panicked ⟨[⟨.leftParen, ['('], none, 1⟩,
                  ⟨.literal, ['1'], some (.number (.fin 1)), 1⟩,
                  ⟨.eof, [], none, 1⟩], 2,
                 [(⟨.eof, [], none, 1⟩, "Expected ')' after expression.")]⟩ := by
  decide

/-- Claim C4 (code bug): unary `-` applied to `true` silently evaluates to
`Boolean(false)` (no runtime type error), and applied to `nil` panics via
`todo!()`; applied to `Number(2)` it does return `Number(-2)` as the claim
says. -/
theorem C4_unary_minus_not_error :
    evaluate (.unary ⟨.minus, ['-'], none, 1⟩ (.literal .true_)) =
      .ok (.boolean false) ∧
    evaluate (.unary ⟨.minus, ['-'], none, 1⟩ (.literal .nil)) = .panicked ∧
    evaluate (.unary ⟨.minus, ['-'], none, 1⟩ (.literal (.number (.fin 2)))) =
      .ok (.number (.fin (-2))) := by
  refine ⟨by decide, by decide, ?_⟩
  simp [evaluate, LoxValue.neg, F.neg]

/-- Claim C5 (code bug): for binary `-` with left operand `String("a")` and
right operand `Number(1)`, only the right operand is checked, so evaluation
returns the normal value `Nil` (the `Sub` fallback), not a runtime type
error. -/
theorem C5_sub_left_operand_unchecked :
    evaluate (.binary (.literal (.str ['a'])) ⟨.minus, ['-'], none, 1⟩
      (.literal (.number (.fin 1)))) = .ok .nil := by decide

/-- Claim C6: for a binary `/` whose operands evaluate to `Number(a)` and
`Number(b)`, the evaluator returns `Nil` when `b = 0` and `Number(a / b)`
when `b ≠ 0`. -/
theorem C6_div_zero_yields_nil (op : Token) (hop : op.token_type = .slash)
    (e1 e2 : Expr) (a b : F)
    (h1 : evaluate e1 = .ok (.number a)) (h2 : evaluate e2 = .ok (.number b)) :
    (b = .fin 0 → evaluate (.binary e1 op e2) = .ok .nil) ∧
    (b ≠ .fin 0 → evaluate (.binary e1 op e2) = .ok (.number (a.div b))) := by
  rw [evaluate_binary_ok h1 h2]
  unfold visit_binary_op
  simp only [hop]
  constructor
  · intro hb
    subst hb
    simp [check_number_operands, LoxValue.div, F.beq]
  · intro hb
    simp only [check_number_operands, LoxValue.div]
    rw [if_neg (fun hc => hb (F_beq_zero_iff.mp hc))]

/-- Witness for C6 at `10 / 0` (evaluates to `Nil`). -/
theorem C6_div_zero_yields_nil_witness :
    evaluate (.binary (.literal (.number (.fin 10))) ⟨.slash, ['/'], none, 1⟩
      (.literal (.number (.fin 0)))) = .ok .nil :=
  (C6_div_zero_yields_nil ⟨.slash, ['/'], none, 1⟩ rfl
    (.literal (.number (.fin 10))) (.literal (.number (.fin 0)))
    (.fin 10) (.fin 0) rfl rfl).1 rfl

/-- The variant tag (kind) of a runtime value. -/
def lvKind : LoxValue → Nat
  | .number _ => 0
  | .str _ => 1
  | .boolean _ => 2
  | .nil => 3

theorem F_beq_comm (a b : F) : F.beq a b = F.beq b a := by
  cases a <;> cases b <;> simp [F.beq]
  exact ⟨fun h => h.symm, fun h => h.symm⟩

/-- Counterexample to claim C7 as stated: equality is not reflexive on every
value — `Number(NaN) == Number(NaN)` evaluates to `Boolean(false)` (IEEE-754
NaN is unequal to itself), not `Boolean(true)`. -/
theorem C7_not_reflexive_on_nan :
    evaluate (.binary (.literal (.number .nan)) ⟨.equalEqual, ['=', '='], none, 1⟩
      (.literal (.number .nan))) = .ok (.boolean false) ∧
    evaluate (.binary (.literal (.number .nan)) ⟨.equalEqual, ['=', '='], none, 1⟩
      (.literal (.number .nan))) ≠ .ok (.boolean true) := by decide

/-- Claim C7 (amended): runtime-value equality is symmetric and
kind-discriminating (values of different kinds are never equal, with no
coercion), and it is reflexive on every value except `Number(NaN)`; the
`==` and `!=` operators compute exactly this equality and its negation. -/
theorem C7_equality_properties :
    (∀ v : LoxValue, v ≠ .number .nan → loxBeq v v = true) ∧
    (∀ a b : LoxValue, loxBeq a b = loxBeq b a) ∧
    (∀ a b : LoxValue, lvKind a ≠ lvKind b → loxBeq a b = false) ∧
    (∀ (op : Token) (e1 e2 : Expr) (a b : LoxValue),
      evaluate e1 = .ok a → evaluate e2 = .ok b →
      (op.token_type = .equalEqual →
        evaluate (.binary e1 op e2) = .ok (.boolean (loxBeq a b))) ∧
      (op.token_type = .bangEqual →
        evaluate (.binary e1 op e2) = .ok (.boolean (!loxBeq a b)))) := by
  refine ⟨?_, ?_, ?_, ?_⟩
  · intro v hv
    cases v with
    | number n =>
      cases n with
      | fin q => simp [loxBeq, F.beq]
      | nan => exact absurd rfl hv
    | str s => simp [loxBeq]
    | boolean b => simp [loxBeq]
    | nil => rfl
  · intro a b
    cases a <;> cases b <;> simp [loxBeq]
    · exact F_beq_comm _ _
    · exact ⟨fun h => h.symm, fun h => h.symm⟩
    · exact ⟨fun h => h.symm, fun h => h.symm⟩
  · intro a b h
    cases a <;> cases b <;> first | exact absurd rfl h | rfl
  · intro op e1 e2 a b h1 h2
    constructor
    · intro hop
      rw [evaluate_binary_ok h1 h2]
      unfold visit_binary_op
      simp only [hop]
    · intro hop
      rw [evaluate_binary_ok h1 h2]
      unfold visit_binary_op
      simp only [hop]

/-- Witness for C7's quantified parts at concrete values: reflexivity at
`String("a")`, symmetry and kind-discrimination at `Number(1)` vs
`String("1")`, and the evaluator bridge at `1 == 1`. -/
theorem C7_equality_properties_witness :
    loxBeq (.str ['a']) (.str ['a']) = true ∧
    loxBeq (.number (.fin 1)) (.str ['1']) =
      loxBeq (.str ['1']) (.number (.fin 1)) ∧
    loxBeq (.number (.fin 1)) (.str ['1']) = false ∧
    evaluate (.binary (.literal (.number (.fin 1)))
        ⟨.equalEqual, ['=', '='], none, 1⟩ (.literal (.number (.fin 1)))) =
      .ok (.boolean (loxBeq (.number (.fin 1)) (.number (.fin 1)))) :=
  ⟨C7_equality_properties.1 (.str ['a']) (by decide),
   C7_equality_properties.2.1 (.number (.fin 1)) (.str ['1']),
   C7_equality_properties.2.2.1 (.number (.fin 1)) (.str ['1']) (by decide),
   (C7_equality_properties.2.2.2 ⟨.equalEqual, ['=', '='], none, 1⟩
     (.literal (.number (.fin 1))) (.literal (.number (.fin 1)))
     (.number (.fin 1)) (.number (.fin 1)) rfl rfl).1 rfl⟩

/-- Claim C8: binary `+` adds two numbers, concatenates two strings, and for
any other combination of operand kinds returns the runtime type error
"Operands must be two numbers or two strings." -/
theorem C8_plus_overload (op : Token) (hop : op.token_type = .plus)
    (e1 e2 : Expr) (a b : LoxValue)
    (h1 : evaluate e1 = .ok a) (h2 : evaluate e2 = .ok b) :
    (∀ p q, a = .number p → b = .number q →
      evaluate (.binary e1 op e2) = .ok (.number (p.add q))) ∧
    (∀ s t, a = .str s → b = .str t →
      evaluate (.binary e1 op e2) = .ok (.str (s ++ t))) ∧
    ((a.is_numerical && b.is_numerical) = false →
      (a.is_string && b.is_string) = false →
      evaluate (.binary e1 op e2) =
        .err ⟨op, "Operands must be two numbers or two strings."⟩) := by
  rw [evaluate_binary_ok h1 h2]
  unfold visit_binary_op
  simp only [hop]
  refine ⟨?_, ?_, ?_⟩
  · rintro p q rfl rfl
    simp [LoxValue.is_numerical, LoxValue.add]
  · rintro s t rfl rfl
    simp [LoxValue.is_numerical, LoxValue.is_string]
  · intro hn hs
    rw [if_neg (by simp [hn]), if_neg (by simp [hs])]

/-- Witness for C8 at the concrete inputs `"a" + "b"` (concatenation). -/
theorem C8_plus_overload_witness :
    evaluate (.binary (.literal (.str ['a'])) ⟨.plus, ['+'], none, 1⟩
      (.literal (.str ['b']))) = .ok (.str ['a', 'b']) :=
  (C8_plus_overload ⟨.plus, ['+'], none, 1⟩ rfl
    (.literal (.str ['a'])) (.literal (.str ['b']))
    (.str ['a']) (.str ['b']) rfl rfl).2.1 ['a'] ['b'] rfl rfl
